import Mathlib

/-!
Shallow embedding of the `variable_streams` Python package
(`bit_value.py`, `bit_stream.py`, `bit_stream_reader.py`,
`bit_stream_writer.py`) and proofs about it.

Python integers are arbitrary-precision two's-complement integers, modelled
as `Int`.  Bytes are modelled as `Nat` (the code keeps them below 256), byte
buffers as `List Nat`.  The `while` loops of the source are modelled as
fuel-indexed recursions; every loop of the source makes progress of at least
one bit per iteration (or one refill), so a fuel of the order of the
requested bit count is always sufficient, and the entry points pass such a
fuel.  Exceptions are modelled with `Except`: each operation returns its
outcome together with the (possibly mutated) object state, mirroring the
fact that a raised Python exception leaves the object in whatever state the
method had produced so far.
-/

namespace VarStreams

/-- Error kinds of `bit_value.py`: `InvalidBitCountError`, `EndOfStreamError`
and the plain `ValueError` raised by the `BitValue` constructor. -/
inductive Err where
  | invalidBitCount
  | endOfStream
  | valueOutOfRange
deriving DecidableEq

/-- Two's-complement bit `k` of an arbitrary-precision integer, i.e. the
value of Python's `(v >> k) & 1` as a boolean.  `v % 2 ^ (k + 1)` is the
nonnegative remainder, whose bit `k` is the wanted bit. -/
def intBit (v : Int) (k : Nat) : Bool :=
  ((v % (2 : Int) ^ (k + 1)).toNat).testBit k

/-- Python's `v & m` for an arbitrary-precision signed `v` and a nonnegative
mask `m`: the bitwise AND on two's-complement representations.  A
nonnegative `v` is ANDed directly; a negative `v = -(u+1)` has the
complement of `u`'s bits, so it clears from `m` exactly the bits `u`
shares with `m`: `m ^^^ (u &&& m)`.  The characterisation
`intAndNat_testBit` below proves this is the bitwise AND. -/
def intAndNat (v : Int) (m : Nat) : Nat :=
  match v with
  | .ofNat u => u &&& m
  | .negSucc u => m ^^^ (u &&& m)

/-- Python's `~n` on an integer: `-n - 1`. -/
def pyNot (n : Nat) : Int := -(n : Int) - 1

/-! ## BitValue (`bit_value.py`) -/

/-- The `BitValue` value object: an integer tagged with a bit width and a
signedness flag (`bit_value.py`, class `BitValue`). -/
structure BitValue where
  value : Int
  bit_count : Nat
  is_signed : Bool
deriving DecidableEq

/-- The `BitValue.__init__` constructor for the integer case:
`bit_count = none` means the Python default `None` (minimal width is
computed, using Python's `int.bit_length`, which is `Nat.size` of the
absolute value).  The copy-constructor branch is the identity on the model
and is omitted.  Python raises `InvalidBitCountError` or `ValueError`;
the model returns the corresponding `Err`. -/
def BitValue.make (value : Int) (bitCount? : Option Nat) : Except Err BitValue :=
  let isSigned := value < 0
  let bitCount := match bitCount? with
    | some bc => bc
    | none => if isSigned then value.natAbs.size + 1 else max 1 value.natAbs.size
  if bitCount = 0 ∨ 128 < bitCount then .error .invalidBitCount
  else if isSigned then
    if value < -((2 : Int) ^ (bitCount - 1)) ∨ (2 : Int) ^ (bitCount - 1) - 1 < value then
      .error .valueOutOfRange
    else .ok { value := value, bit_count := bitCount, is_signed := decide isSigned }
  else
    if value < 0 ∨ (2 : Int) ^ bitCount - 1 < value then .error .valueOutOfRange
    else .ok { value := value, bit_count := bitCount, is_signed := decide isSigned }

/-- One loop iteration's update of the current byte, shared by
`BitStream.write_bits` and `BitStreamWriter.write_bits`.  With the source's
locals `shift`, `bits_to_write` (`btw`) and `byte_shift` this is

  `mask = ((1 << btw) - 1) << shift`,
  `extracted_bits = (value & mask) >> shift`,
  `byte_mask = ~(((1 << btw) - 1) << byte_shift) & 0xFF`,
  `new_byte = (old_byte & byte_mask) | (extracted_bits << byte_shift)`,

where `&` with the signed `value` is `intAndNat` and `~` is `pyNot`. -/
def writeChunkByte (value : Int) (oldByte shift btw byteShift : Nat) : Nat :=
  (oldByte &&& intAndNat (pyNot (((1 <<< btw) - 1) <<< byteShift)) 255) |||
    ((intAndNat value (((1 <<< btw) - 1) <<< shift) >>> shift) <<< byteShift)

/-! ## BitStream (`bit_stream.py`)

The in-memory random-access bit stream.  The byte buffer is a `List Nat`
(a `bytearray` whose entries the code keeps below 256), together with the
cursor `(_byte_pos, _bit_pos)` and the high-water mark `_bit_length`.
Reads and writes are MSB-first within each byte. -/

structure BitStream where
  buffer : List Nat
  bytePos : Nat
  bitPos : Nat
  bitLength : Nat
deriving DecidableEq

namespace BitStream

/-- The `BitStream.__init__` constructor / `from_bytes`: `data` is the byte
sequence (an absent `data` argument is the empty list). -/
def from_bytes (data : List Nat) : BitStream :=
  { buffer := data, bytePos := 0, bitPos := 0, bitLength := data.length * 8 }

/-- Current position in bits (`BitStream.position`). -/
def position (s : BitStream) : Nat := s.bytePos * 8 + s.bitPos

/-- Total length of the stream in bits (`BitStream.length`). -/
def length (s : BitStream) : Nat := s.bitLength

/-- Whether the stream is empty (`BitStream.is_empty`). -/
def is_empty (s : BitStream) : Bool := s.bitLength = 0

/-- Whether the cursor is at or past the end (`BitStream.is_eof`). -/
def is_eof (s : BitStream) : Bool := s.bitLength ≤ position s

/-- Set the cursor position in bits (`BitStream.set_position`).  Fails with
`EndOfStreamError` when the position is beyond the end. -/
def set_position (s : BitStream) (p : Nat) : Except Err Unit × BitStream :=
  if s.bitLength < p then (.error .endOfStream, s)
  else (.ok (), { s with bytePos := p / 8, bitPos := p % 8 })

/-- Reset the cursor to the beginning (`BitStream.reset`). -/
def reset (s : BitStream) : BitStream := { s with bytePos := 0, bitPos := 0 }

/-- Snapshot of the backing storage (`BitStream.to_bytes`). -/
def to_bytes (s : BitStream) : List Nat := s.buffer

/-- The `while bits_read < bit_count` loop of `BitStream.read_bits`.  The
loop state is `(result, bits_read, byte_pos, bit_pos)`.  `fuel` bounds the
number of iterations; every iteration with `bit_pos ≤ 7` reads at least one
bit, so `fuel = bit_count` is always enough (see `readLoop_spec`).  The
`bits_read == 0` raise of the source can only fire on the first iteration
and is hoisted into `read_bits` below; the later-iteration `break` is the
early return here. -/
def readLoop (buffer : List Nat) (bitCount : Nat) :
    Nat → Nat → Nat → Nat → Nat → Nat × Nat × Nat
  | 0, result, _, bytePos, bitPos => (result, bytePos, bitPos)
  | fuel + 1, result, bitsRead, bytePos, bitPos =>
    if bitsRead < bitCount then
      if buffer.length ≤ bytePos then (result, bytePos, bitPos)
      else
        let currentByte := buffer.getD bytePos 0
        let bitsLeftInByte := 8 - bitPos
        let bitsToRead := min (bitCount - bitsRead) bitsLeftInByte
        let mask := (1 <<< bitsToRead) - 1
        let shift := bitsLeftInByte - bitsToRead
        let extractedBits := (currentByte >>> shift) &&& mask
        let result1 := result ||| (extractedBits <<< (bitCount - bitsRead - bitsToRead))
        let bitsRead1 := bitsRead + bitsToRead
        let bitPos1 := bitPos + bitsToRead
        if bitPos1 = 8 then readLoop buffer bitCount fuel result1 bitsRead1 (bytePos + 1) 0
        else readLoop buffer bitCount fuel result1 bitsRead1 bytePos bitPos1
    else (result, bytePos, bitPos)

/-- Read up to 64 bits (`BitStream.read_bits`).  Returns the outcome
together with the stream state; Python raises leave the object unmutated
here because every raise in the source happens before any mutation. -/
def read_bits (s : BitStream) (bitCount : Nat) : Except Err Nat × BitStream :=
  if bitCount = 0 ∨ 64 < bitCount then (.error .invalidBitCount, s)
  else if s.bitLength < position s + bitCount then (.error .endOfStream, s)
  else if s.buffer.length ≤ s.bytePos then (.error .endOfStream, s)
  else
    (.ok (readLoop s.buffer bitCount bitCount 0 0 s.bytePos s.bitPos).1,
      { s with bytePos := (readLoop s.buffer bitCount bitCount 0 0 s.bytePos s.bitPos).2.1,
               bitPos := (readLoop s.buffer bitCount bitCount 0 0 s.bytePos s.bitPos).2.2 })

/-- Read up to 128 bits (`BitStream.read_bits_u128`): delegates for
`bit_count ≤ 64`, otherwise reads the high `bit_count - 64` bits first and
then 64 low bits, combining `(high <<< 64) ||| low`. -/
def read_bits_u128 (s : BitStream) (bitCount : Nat) : Except Err Nat × BitStream :=
  if bitCount = 0 ∨ 128 < bitCount then (.error .invalidBitCount, s)
  else if bitCount ≤ 64 then read_bits s bitCount
  else if s.bitLength < position s + bitCount then (.error .endOfStream, s)
  else
    match read_bits s (bitCount - 64) with
    | (.error e, s1) => (.error e, s1)
    | (.ok highValue, s1) =>
      match read_bits s1 64 with
      | (.error e, s2) => (.error e, s2)
      | (.ok lowValue, s2) => (.ok ((highValue <<< 64) ||| lowValue), s2)

/-- Read bits and wrap them in a `BitValue` (`BitStream.read_bit_value`).
When `is_signed` is requested and the sign bit is set, the raw value is
reinterpreted as `value - 2 ^ bit_count`.  Note the source passes only the
value and the width to the `BitValue` constructor. -/
def read_bit_value (s : BitStream) (bitCount : Nat) (isSigned : Bool) :
    Except Err BitValue × BitStream :=
  if bitCount ≤ 64 then
    match read_bits s bitCount with
    | (.error e, s1) => (.error e, s1)
    | (.ok value, s1) =>
      match BitValue.make
          (if isSigned = true ∧ value &&& (1 <<< (bitCount - 1)) ≠ 0 then
            (value : Int) - ((1 <<< bitCount : Nat) : Int)
          else (value : Int)) (some bitCount) with
      | .error e => (.error e, s1)
      | .ok bv => (.ok bv, s1)
  else
    match read_bits_u128 s bitCount with
    | (.error e, s1) => (.error e, s1)
    | (.ok value, s1) =>
      match BitValue.make
          (if isSigned = true ∧ value &&& (1 <<< (bitCount - 1)) ≠ 0 then
            (value : Int) - ((1 <<< bitCount : Nat) : Int)
          else (value : Int)) (some bitCount) with
      | .error e => (.error e, s1)
      | .ok bv => (.ok bv, s1)

/-- The `while bits_written < bit_count` loop of `BitStream.write_bits`.
Loop state is `(buffer, bits_written, byte_pos, bit_pos)`; the byte update
of each iteration is `writeChunkByte`. -/
def writeLoop (value : Int) (bitCount : Nat) :
    Nat → List Nat → Nat → Nat → Nat → List Nat × Nat × Nat
  | 0, buffer, _, bytePos, bitPos => (buffer, bytePos, bitPos)
  | fuel + 1, buffer, bitsWritten, bytePos, bitPos =>
    if bitsWritten < bitCount then
      let bitsLeftInByte := 8 - bitPos
      let bitsToWrite := min (bitCount - bitsWritten) bitsLeftInByte
      let newByte := writeChunkByte value (buffer.getD bytePos 0)
        (bitCount - bitsWritten - bitsToWrite) bitsToWrite (bitsLeftInByte - bitsToWrite)
      let buffer1 := buffer.set bytePos newByte
      let bitsWritten1 := bitsWritten + bitsToWrite
      let bitPos1 := bitPos + bitsToWrite
      if bitPos1 = 8 then writeLoop value bitCount fuel buffer1 bitsWritten1 (bytePos + 1) 0
      else writeLoop value bitCount fuel buffer1 bitsWritten1 bytePos bitPos1
    else (buffer, bytePos, bitPos)

/-- The buffer of `s` grown by zero bytes up to `required_bytes`, the first
step of `BitStream.write_bits` (`required_bytes = (position + bit_count + 7)
// 8`). -/
def grownBuffer (s : BitStream) (bitCount : Nat) : List Nat :=
  if s.buffer.length < (position s + bitCount + 7) / 8 then
    s.buffer ++ List.replicate ((position s + bitCount + 7) / 8 - s.buffer.length) 0
  else s.buffer

/-- Write up to 64 bits (`BitStream.write_bits`): grows the buffer with
zero bytes up to `required_bytes`, runs the loop, then raises the
high-water mark `_bit_length` when the new position exceeds it. -/
def write_bits (s : BitStream) (value : Int) (bitCount : Nat) :
    Except Err Unit × BitStream :=
  if bitCount = 0 ∨ 64 < bitCount then (.error .invalidBitCount, s)
  else
    (.ok (),
      { buffer := (writeLoop value bitCount bitCount (grownBuffer s bitCount) 0 s.bytePos s.bitPos).1,
        bytePos := (writeLoop value bitCount bitCount (grownBuffer s bitCount) 0 s.bytePos s.bitPos).2.1,
        bitPos := (writeLoop value bitCount bitCount (grownBuffer s bitCount) 0 s.bytePos s.bitPos).2.2,
        bitLength :=
          if s.bitLength <
              (writeLoop value bitCount bitCount (grownBuffer s bitCount) 0 s.bytePos s.bitPos).2.1 * 8 +
                (writeLoop value bitCount bitCount (grownBuffer s bitCount) 0 s.bytePos s.bitPos).2.2
          then (writeLoop value bitCount bitCount (grownBuffer s bitCount) 0 s.bytePos s.bitPos).2.1 * 8 +
                (writeLoop value bitCount bitCount (grownBuffer s bitCount) 0 s.bytePos s.bitPos).2.2
          else s.bitLength })

/-- Write up to 128 bits (`BitStream.write_bits_u128`): delegates for
`bit_count ≤ 64`, otherwise writes the high `bit_count - 64` bits first
(`value >> 64`, an arithmetic shift), then the 64 low bits
(`value & ((1 << 64) - 1)`). -/
def write_bits_u128 (s : BitStream) (value : Int) (bitCount : Nat) :
    Except Err Unit × BitStream :=
  if bitCount = 0 ∨ 128 < bitCount then (.error .invalidBitCount, s)
  else if bitCount ≤ 64 then write_bits s value bitCount
  else
    match write_bits s (value >>> (64 : Nat)) (bitCount - 64) with
    | (.error e, s1) => (.error e, s1)
    | (.ok _, s1) =>
      match write_bits s1 ((intAndNat value ((1 <<< 64) - 1) : Nat) : Int) 64 with
      | (.error e, s2) => (.error e, s2)
      | (.ok _, s2) => (.ok (), s2)

/-- Bit `i` of the stream, MSB-first within each byte: bit `i` lives in byte
`i / 8` at `testBit` index `7 - i % 8`. -/
def streamBit (buffer : List Nat) (i : Nat) : Bool :=
  (buffer.getD (i / 8) 0).testBit (7 - i % 8)

/-- The state invariant of a `BitStream`: the high-water mark fits in the
buffer, the cursor does not exceed the high-water mark, and the intra-byte
cursor is in `0..7`. -/
def Inv (s : BitStream) : Prop :=
  s.bitLength ≤ 8 * s.buffer.length ∧ position s ≤ s.bitLength ∧ s.bitPos ≤ 7

/-- An operation on a `BitStream`, for quantifying over the API. -/
inductive BOp where
  | rd (n : Nat)
  | rdU (n : Nat)
  | wr (v : Int) (n : Nat)
  | wrU (v : Int) (n : Nat)
  | setPos (p : Nat)
  | resetOp

/-- Apply an operation, keeping its outcome (read results are discarded,
only the success or the raised error is kept) and the next state. -/
def applyOp (s : BitStream) : BOp → Except Err Unit × BitStream
  | .rd n => ((read_bits s n).1.map fun _ => (), (read_bits s n).2)
  | .rdU n => ((read_bits_u128 s n).1.map fun _ => (), (read_bits_u128 s n).2)
  | .wr v n => write_bits s v n
  | .wrU v n => write_bits_u128 s v n
  | .setPos p => set_position s p
  | .resetOp => (.ok (), reset s)

/-- States reachable from construction (`__init__` / `from_bytes`) through
successful operations. -/
inductive Reachable : BitStream → Prop where
  | init (data : List Nat) : Reachable (from_bytes data)
  | step (s : BitStream) (op : BOp) (h : Reachable s)
      (hok : (applyOp s op).1 = .ok ()) : Reachable (applyOp s op).2

end BitStream

/-! ## BitStreamReader (`bit_stream_reader.py`)

The sequential buffered reader.  The borrowed byte source is modelled as
the list of bytes it still has to deliver (`input`); `stream.read(k)`
delivers `input.take k` and consumes it.  The internal buffer has fixed
capacity `buffer.length`; `bufferSize` counts its valid bytes
(`_buffer_size`).  Bits are extracted LSB-first within each byte. -/

structure BitStreamReader where
  input : List Nat
  buffer : List Nat
  bytePos : Nat
  bitPos : Nat
  bufferSize : Nat
  eof : Bool
deriving DecidableEq

namespace BitStreamReader

/-- The `BitStreamReader.__init__` constructor: an internal buffer of
`bufferCapacity` zero bytes, nothing buffered yet, `eof` clear. -/
def mkReader (input : List Nat) (bufferCapacity : Nat) : BitStreamReader :=
  { input := input, buffer := List.replicate bufferCapacity 0,
    bytePos := 0, bitPos := 0, bufferSize := 0, eof := false }

/-- The `_fill_buffer` method: reset the cursor, read up to the buffer
capacity from the source; an empty read sets `_eof`, otherwise the read
bytes replace the front of the buffer (`self._buffer[:n] = bytes_read`). -/
def fill_buffer (r : BitStreamReader) : BitStreamReader :=
  if (r.input.take r.buffer.length).length = 0 then
    { r with bytePos := 0, bitPos := 0, bufferSize := 0, eof := true }
  else
    { r with bytePos := 0, bitPos := 0, buffer := r.input.take r.buffer.length ++ r.buffer.drop (r.input.take r.buffer.length).length, bufferSize := (r.input.take r.buffer.length).length, input := r.input.drop (r.input.take r.buffer.length).length }

/-- The `while bits_read < bit_count` loop of `BitStreamReader.read_bits`.
A refill iteration consumes no bits, and every consuming iteration with
`bit_pos ≤ 7` reads at least one bit, with at most one successful refill
between consuming iterations, so `2 * bit_count + 2` fuel always suffices.
The `bits_read == 0` raise of the source is the `.error` outcome; the
`break` on exhaustion returns the (possibly short) accumulated result. -/
def readLoop (bitCount : Nat) :
    Nat → Nat → Nat → BitStreamReader → Except Err Nat × BitStreamReader
  | 0, result, _, r => (.ok result, r)
  | fuel + 1, result, bitsRead, r =>
    if bitsRead < bitCount then
      if r.bufferSize ≤ r.bytePos then
        if r.eof then
          if bitsRead = 0 then (.error .endOfStream, r) else (.ok result, r)
        else
          if (fill_buffer r).bufferSize = 0 then
            if bitsRead = 0 then (.error .endOfStream, { fill_buffer r with eof := true })
            else (.ok result, { fill_buffer r with eof := true })
          else readLoop bitCount fuel result bitsRead (fill_buffer r)
      else
        let currentByte := r.buffer.getD r.bytePos 0
        let bitsLeftInByte := 8 - r.bitPos
        let bitsToRead := min (bitCount - bitsRead) bitsLeftInByte
        let mask := (1 <<< bitsToRead) - 1
        let extractedBits := (currentByte >>> r.bitPos) &&& mask
        let result1 := result ||| (extractedBits <<< bitsRead)
        let bitsRead1 := bitsRead + bitsToRead
        let bitPos1 := r.bitPos + bitsToRead
        if bitPos1 = 8 then
          readLoop bitCount fuel result1 bitsRead1
            { r with bytePos := r.bytePos + 1, bitPos := 0 }
        else
          readLoop bitCount fuel result1 bitsRead1 { r with bitPos := bitPos1 }
    else (.ok result, r)

/-- Read up to 64 bits (`BitStreamReader.read_bits`), LSB-first. -/
def read_bits (r : BitStreamReader) (bitCount : Nat) :
    Except Err Nat × BitStreamReader :=
  if bitCount = 0 ∨ 64 < bitCount then (.error .invalidBitCount, r)
  else readLoop bitCount (2 * bitCount + 2) 0 0 r

/-- Read up to 128 bits (`BitStreamReader.read_bits_u128`): the low 64 bits
first, then the high bits, combined `(high <<< 64) ||| low`. -/
def read_bits_u128 (r : BitStreamReader) (bitCount : Nat) :
    Except Err Nat × BitStreamReader :=
  if bitCount = 0 ∨ 128 < bitCount then (.error .invalidBitCount, r)
  else if bitCount ≤ 64 then read_bits r bitCount
  else
    match read_bits r 64 with
    | (.error e, r1) => (.error e, r1)
    | (.ok lowValue, r1) =>
      match read_bits r1 (bitCount - 64) with
      | (.error e, r2) => (.error e, r2)
      | (.ok highValue, r2) => (.ok ((highValue <<< 64) ||| lowValue), r2)

/-- The `is_eof` method.  The probe against the source (`read(1)` followed
by a seek back when a byte was available) is modelled by inspecting
`input`: an empty source sets the `_eof` flag, a nonempty one is left
untouched. -/
def is_eof (r : BitStreamReader) : Bool × BitStreamReader :=
  if !r.eof then (false, r)
  else if r.bufferSize ≤ r.bytePos then (true, r)
  else if r.bytePos = r.bufferSize - 1 ∧ r.bitPos = 8 then (true, r)
  else
    match r.input with
    | [] => (decide (r.bufferSize ≤ r.bytePos), { r with eof := true })
    | _ :: _ => (false, r)

/-- Bit `q` of the buffered bytes, LSB-first within each byte: bit `q`
lives in byte `q / 8` at `testBit` index `q % 8`. -/
def streamBitLSB (buffer : List Nat) (q : Nat) : Bool :=
  (buffer.getD (q / 8) 0).testBit (q % 8)

/-- Number of unread bits remaining in the internal buffer. -/
def avail (r : BitStreamReader) : Nat :=
  8 * r.bufferSize - (8 * r.bytePos + r.bitPos)

end BitStreamReader

/-! ## BitStreamWriter (`bit_stream_writer.py`)

The sequential buffered writer.  The borrowed byte sink is modelled as the
list of bytes delivered to it so far (`out`).  Bits are extracted from the
value LSB-first; within each internal-buffer byte the extracted chunk is
placed at `byte_shift = bits_left_in_byte - bits_to_write`. -/

structure BitStreamWriter where
  buffer : List Nat
  bytePos : Nat
  bitPos : Nat
  bufferSize : Nat
  out : List Nat
deriving DecidableEq

namespace BitStreamWriter

/-- The `BitStreamWriter.__init__` constructor: an internal buffer of
`bufferCapacity` zero bytes (`_buffer_size` stores the capacity). -/
def mkWriter (bufferCapacity : Nat) : BitStreamWriter :=
  { buffer := List.replicate bufferCapacity 0, bytePos := 0, bitPos := 0,
    bufferSize := bufferCapacity, out := [] }

/-- The `_flush_buffer` method: deliver the filled bytes to the sink,
reset the byte cursor and clear (only) the first buffer byte. -/
def flush_buffer (w : BitStreamWriter) : BitStreamWriter :=
  if 0 < w.bytePos then
    { w with out := w.out ++ w.buffer.take w.bytePos, bytePos := 0, buffer := w.buffer.set 0 0 }
  else w

/-- The `flush` method: a pending partial byte counts as a full byte slot,
then the buffer is flushed (the sink flush itself has no observable
effect on the model). -/
def flush (w : BitStreamWriter) : BitStreamWriter :=
  flush_buffer (if 0 < w.bitPos then { w with bytePos := w.bytePos + 1, bitPos := 0 } else w)

/-- The `while bits_written < bit_count` loop of
`BitStreamWriter.write_bits`: LSB-first extraction (`shift = bits_written`)
with the byte update `writeChunkByte`; a full internal buffer is flushed
mid-loop. -/
def writeLoop (value : Int) (bitCount : Nat) :
    Nat → Nat → BitStreamWriter → BitStreamWriter
  | 0, _, w => w
  | fuel + 1, bitsWritten, w =>
    if bitsWritten < bitCount then
      let bitsLeftInByte := 8 - w.bitPos
      let bitsToWrite := min (bitCount - bitsWritten) bitsLeftInByte
      let newByte := writeChunkByte value (w.buffer.getD w.bytePos 0)
        bitsWritten bitsToWrite (bitsLeftInByte - bitsToWrite)
      let bitPos1 := w.bitPos + bitsToWrite
      if bitPos1 = 8 then
        if w.bufferSize ≤ w.bytePos + 1 then
          writeLoop value bitCount fuel (bitsWritten + bitsToWrite)
            (flush_buffer { w with buffer := w.buffer.set w.bytePos newByte, bytePos := w.bytePos + 1, bitPos := 0 })
        else
          writeLoop value bitCount fuel (bitsWritten + bitsToWrite)
            { w with buffer := w.buffer.set w.bytePos newByte, bytePos := w.bytePos + 1, bitPos := 0 }
      else
        writeLoop value bitCount fuel (bitsWritten + bitsToWrite)
          { w with buffer := w.buffer.set w.bytePos newByte, bitPos := bitPos1 }
    else w

/-- Write up to 64 bits (`BitStreamWriter.write_bits`), LSB-first.  The
pre-loop capacity check flushes a full buffer before writing. -/
def write_bits (w : BitStreamWriter) (value : Int) (bitCount : Nat) :
    Except Err Unit × BitStreamWriter :=
  if bitCount = 0 ∨ 64 < bitCount then (.error .invalidBitCount, w)
  else
    (.ok (), writeLoop value bitCount bitCount 0
      (if w.bufferSize ≤ w.bytePos then flush_buffer w else w))

/-- Write up to 128 bits (`BitStreamWriter.write_bits_u128`): the low 64
bits first (`value & ((1 << 64) - 1)`), then the high bits
(`value >> 64`). -/
def write_bits_u128 (w : BitStreamWriter) (value : Int) (bitCount : Nat) :
    Except Err Unit × BitStreamWriter :=
  if bitCount = 0 ∨ 128 < bitCount then (.error .invalidBitCount, w)
  else if bitCount ≤ 64 then write_bits w value bitCount
  else
    match write_bits w ((intAndNat value ((1 <<< 64) - 1) : Nat) : Int) 64 with
    | (.error e, w1) => (.error e, w1)
    | (.ok _, w1) =>
      match write_bits w1 (value >>> (64 : Nat)) (bitCount - 64) with
      | (.error e, w2) => (.error e, w2)
      | (.ok _, w2) => (.ok (), w2)

/-- Bit `p` of the bytes delivered to the sink, MSB-first within each byte,
matching the placement `byte_shift = bits_left_in_byte - bits_to_write`
used by `write_bits`. -/
def sinkBit (out : List Nat) (p : Nat) : Bool :=
  (out.getD (p / 8) 0).testBit (7 - p % 8)

/-- State invariant of a writer that has not yet delivered anything: the
cursor is inside the buffer, and every bit at or past the cursor is still
zero (the low `8 - bitPos` bits of the current byte, and all later
bytes). -/
def ZeroTail (w : BitStreamWriter) : Prop :=
  w.bitPos ≤ 7 ∧ w.bytePos < w.bufferSize ∧ w.buffer.length = w.bufferSize ∧
  w.buffer.getD w.bytePos 0 % 2 ^ (8 - w.bitPos) = 0 ∧
  ∀ j, w.bytePos < j → w.buffer.getD j 0 = 0

/-- Writer states reachable from construction (with a nonempty internal
buffer) through any sequence of `write_bits` / `write_bits_u128` calls. -/
inductive WReach : BitStreamWriter → Prop where
  | init : ∀ cap, 1 ≤ cap → WReach (mkWriter cap)
  | wr : ∀ w v n, WReach w → WReach (write_bits w v n).2
  | wrU : ∀ w v n, WReach w → WReach (write_bits_u128 w v n).2

end BitStreamWriter

theorem emod_two_pow_toNat_testBit (v : Int) {K k : Nat} (h : k < K) :
    ((v % (2 : Int) ^ K).toNat).testBit k = intBit v k := by
  have hpos : (0 : Int) < 2 ^ K := by positivity
  have hnn : 0 ≤ v % (2 : Int) ^ K := Int.emod_nonneg v (by positivity)
  set a : Nat := (v % (2 : Int) ^ K).toNat with ha
  have hcast : ((a : Int)) = v % (2 : Int) ^ K := Int.toNat_of_nonneg hnn
  have hdvd : ((2 : Int) ^ (k + 1)) ∣ (2 : Int) ^ K := pow_dvd_pow 2 h
  have h1 : v % (2 : Int) ^ (k + 1) = (a : Int) % (2 : Int) ^ (k + 1) := by
    rw [hcast, Int.emod_emod_of_dvd v hdvd]
  have h2 : (a : Int) % (2 : Int) ^ (k + 1) = ((a % 2 ^ (k + 1) : Nat) : Int) := by
    push_cast
    ring_nf
  unfold intBit
  rw [h1, h2, Int.toNat_natCast, Nat.testBit_mod_two_pow]
  simp

theorem intBit_natCast (v : Nat) (k : Nat) : intBit (v : Int) k = v.testBit k := by
  unfold intBit
  have h2 : ((v : Int)) % (2 : Int) ^ (k + 1) = ((v % 2 ^ (k + 1) : Nat) : Int) := by
    push_cast
    try ring
  rw [h2, Int.toNat_natCast, Nat.testBit_mod_two_pow]
  simp

theorem testBit_two_pow_sub_one_sub {k : Nat} {r : Nat} (hr : r < 2 ^ (k + 1)) :
    (2 ^ (k + 1) - 1 - r).testBit k = !(r.testBit k) := by
  have hk : (0 : Nat) < 2 ^ k := Nat.two_pow_pos k
  have h2 : 2 ^ (k + 1) = 2 ^ k * 2 := by ring
  by_cases hcase : r < 2 ^ k
  · have hbit : r.testBit k = false := Nat.testBit_lt_two_pow hcase
    have hval : 2 ^ (k + 1) - 1 - r = (2 ^ k - 1 - r) + 2 ^ k * 1 := by omega
    rw [hbit, hval, Nat.testBit_to_div_mod, Nat.add_mul_div_left _ _ hk,
      Nat.div_eq_of_lt (by omega)]
    simp
  · have hge : 2 ^ k ≤ r := Nat.le_of_not_lt hcase
    have hbit : r.testBit k = true := by
      rw [Nat.testBit_to_div_mod]
      have hdr : r / 2 ^ k = 1 := Nat.div_eq_of_lt_le (by omega) (by omega)
      simp [hdr]
    have hval : 2 ^ (k + 1) - 1 - r < 2 ^ k := by omega
    rw [hbit, Nat.testBit_lt_two_pow hval]
    rfl

theorem intBit_pyNot (n : Nat) (k : Nat) : intBit (pyNot n) k = !(n.testBit k) := by
  have hP : ((2 ^ (k + 1) : Nat) : Int) = (2 : Int) ^ (k + 1) := by push_cast; try ring
  have hk : (0 : Nat) < 2 ^ (k + 1) := Nat.two_pow_pos (k + 1)
  have hs : n % 2 ^ (k + 1) < 2 ^ (k + 1) := Nat.mod_lt _ hk
  have hqr : 2 ^ (k + 1) * (n / 2 ^ (k + 1)) + n % 2 ^ (k + 1) = n :=
    Nat.div_add_mod n (2 ^ (k + 1))
  have hn : ((n : Nat) : Int) = ((2 ^ (k + 1) : Nat) : Int) * ((n / 2 ^ (k + 1) : Nat) : Int)
      + ((n % 2 ^ (k + 1) : Nat) : Int) := by
    exact_mod_cast congrArg (fun x : Nat => (x : Int)) hqr.symm
  have hrepr : pyNot n =
      ((2 ^ (k + 1) - 1 - n % 2 ^ (k + 1) : Nat) : Int)
        + ((2 ^ (k + 1) : Nat) : Int) * (-((n / 2 ^ (k + 1) : Nat) : Int) - 1) := by
    unfold pyNot
    have hcast : ((2 ^ (k + 1) - 1 - n % 2 ^ (k + 1) : Nat) : Int)
        = ((2 ^ (k + 1) : Nat) : Int) - 1 - ((n % 2 ^ (k + 1) : Nat) : Int) := by
      omega
    rw [hcast, hn]
    ring
  have hmod : pyNot n % (2 : Int) ^ (k + 1)
      = ((2 ^ (k + 1) - 1 - n % 2 ^ (k + 1) : Nat) : Int) := by
    rw [hrepr, ← hP, Int.add_mul_emod_self_left]
    exact Int.emod_eq_of_lt (by positivity) (by exact_mod_cast by omega)
  unfold intBit
  rw [hmod, Int.toNat_natCast, testBit_two_pow_sub_one_sub hs,
    Nat.testBit_mod_two_pow]
  simp

theorem intAndNat_testBit (v : Int) (m : Nat) (j : Nat) :
    (intAndNat v m).testBit j = (intBit v j && m.testBit j) := by
  cases v with
  | ofNat u =>
    show (u &&& m).testBit j = (intBit (Int.ofNat u) j && m.testBit j)
    have hcast : Int.ofNat u = (u : Int) := rfl
    rw [Nat.testBit_land, hcast, intBit_natCast]
  | negSucc u =>
    show (m ^^^ (u &&& m)).testBit j = (intBit (Int.negSucc u) j && m.testBit j)
    have hns : Int.negSucc u = pyNot u := by
      unfold pyNot
      rw [Int.negSucc_eq]
      ring
    rw [hns, intBit_pyNot, Nat.testBit_xor, Nat.testBit_land]
    cases hm : m.testBit j <;> cases hu : u.testBit j <;> rfl

theorem intAndNat_natCast (v m : Nat) : intAndNat (v : Int) m = v &&& m := by
  apply Nat.eq_of_testBit_eq
  intro j
  rw [intAndNat_testBit, intBit_natCast, Nat.testBit_land]

/-- Bits of `(v % 2 ^ n).toNat` are the low `n` two's-complement bits. -/
theorem toNat_emod_two_pow_testBit (v : Int) (n j : Nat) :
    ((v % (2 : Int) ^ n).toNat).testBit j = (decide (j < n) && intBit v j) := by
  by_cases hj : j < n
  · rw [emod_two_pow_toNat_testBit v hj]
    simp [hj]
  · have hlt : (v % (2 : Int) ^ n).toNat < 2 ^ n := by
      have h0 : 0 ≤ v % (2 : Int) ^ n := Int.emod_nonneg v (by positivity)
      have h1 : v % (2 : Int) ^ n < (2 : Int) ^ n :=
        Int.emod_lt_of_pos v (by positivity)
      have h2 : ((v % (2 : Int) ^ n).toNat : Int) = v % (2 : Int) ^ n :=
        Int.toNat_of_nonneg h0
      have h3 : ((v % (2 : Int) ^ n).toNat : Int) < (2 : Int) ^ n := by rw [h2]; exact h1
      exact_mod_cast h3
    have : (v % (2 : Int) ^ n).toNat < 2 ^ j :=
      lt_of_lt_of_le hlt (Nat.pow_le_pow_right (by norm_num) (Nat.le_of_not_lt hj))
    rw [Nat.testBit_eq_false_of_lt this]
    simp [hj]

/-- Shift of an integer moves its two's-complement bits (`>>>` on `Int` is
Python's arithmetic shift). -/
theorem intBit_shiftRight (v : Int) (s k : Nat) :
    intBit (v >>> s) k = intBit v (s + k) := by
  have hnn : 0 ≤ v % (2 : Int) ^ (s + k + 1) := Int.emod_nonneg v (by positivity)
  set a : Nat := (v % (2 : Int) ^ (s + k + 1)).toNat with ha
  have hcast : ((a : Int)) = v % (2 : Int) ^ (s + k + 1) := Int.toNat_of_nonneg hnn
  have hva : v = (2 : Int) ^ (s + k + 1) * (v / 2 ^ (s + k + 1)) + (a : Int) := by
    rw [hcast]
    exact (Int.ediv_add_emod v ((2 : Int) ^ (s + k + 1))).symm
  have hdiv2 : v / (2 : Int) ^ s
      = ((a : Int)) / (2 : Int) ^ s + (2 : Int) ^ (k + 1) * (v / 2 ^ (s + k + 1)) := by
    have hrew : v = (a : Int) + ((2 : Int) ^ (k + 1) * (v / (2 : Int) ^ (s + k + 1))) * (2 : Int) ^ s := by
      conv_lhs => rw [hva]
      ring
    conv_lhs => rw [hrew]
    exact Int.add_mul_ediv_right _ _ (by positivity : (0 : Int) < (2 : Int) ^ s).ne'
  have hacast : ((a : Int)) / (2 : Int) ^ s = ((a / 2 ^ s : Nat) : Int) := by
    rw [Int.ofNat_ediv]
    push_cast
    try ring
  have hshift : v >>> s = v / (2 : Int) ^ s := by
    rw [Int.shiftRight_eq_div_pow]
    norm_num
  have hlt : ((a / 2 ^ s : Nat) : Int) < (2 : Int) ^ (k + 1) := by
    have h1 : a < 2 ^ (s + k + 1) := by
      have h2 : v % (2 : Int) ^ (s + k + 1) < (2 : Int) ^ (s + k + 1) :=
        Int.emod_lt_of_pos v (by positivity)
      rw [← hcast] at h2
      exact_mod_cast h2
    have h3 : a / 2 ^ s < 2 ^ (k + 1) := by
      apply Nat.div_lt_of_lt_mul
      calc a < 2 ^ (s + k + 1) := h1
        _ = 2 ^ s * 2 ^ (k + 1) := by rw [← pow_add]; ring_nf
    exact_mod_cast h3
  unfold intBit
  rw [hshift, hdiv2, hacast, mul_comm ((2 : Int) ^ (k + 1)) _, Int.add_mul_emod_self,
    Int.emod_eq_of_lt (by positivity) hlt, Int.toNat_natCast,
    ← Nat.shiftRight_eq_div_pow, Nat.testBit_shiftRight]

namespace BitStream

theorem readLoop_succ (buffer : List Nat) (bitCount fuel result bitsRead bytePos bitPos : Nat) :
    readLoop buffer bitCount (fuel + 1) result bitsRead bytePos bitPos
    = if bitsRead < bitCount then
        if buffer.length ≤ bytePos then (result, bytePos, bitPos)
        else
          if bitPos + min (bitCount - bitsRead) (8 - bitPos) = 8 then
            readLoop buffer bitCount fuel
              (result |||
                (((buffer.getD bytePos 0 >>>
                      (8 - bitPos - min (bitCount - bitsRead) (8 - bitPos))) &&&
                    ((1 <<< min (bitCount - bitsRead) (8 - bitPos)) - 1)) <<<
                  (bitCount - bitsRead - min (bitCount - bitsRead) (8 - bitPos))))
              (bitsRead + min (bitCount - bitsRead) (8 - bitPos)) (bytePos + 1) 0
          else
            readLoop buffer bitCount fuel
              (result |||
                (((buffer.getD bytePos 0 >>>
                      (8 - bitPos - min (bitCount - bitsRead) (8 - bitPos))) &&&
                    ((1 <<< min (bitCount - bitsRead) (8 - bitPos)) - 1)) <<<
                  (bitCount - bitsRead - min (bitCount - bitsRead) (8 - bitPos))))
              (bitsRead + min (bitCount - bitsRead) (8 - bitPos)) bytePos
              (bitPos + min (bitCount - bitsRead) (8 - bitPos))
      else (result, bytePos, bitPos) := rfl

theorem readLoop_spec (buffer : List Nat) (bitCount : Nat) :
    ∀ (fuel result bitsRead bytePos bitPos : Nat),
      bitsRead ≤ bitCount →
      bitCount - bitsRead ≤ fuel →
      bitPos ≤ 7 →
      bytePos * 8 + bitPos + (bitCount - bitsRead) ≤ 8 * buffer.length →
      ((readLoop buffer bitCount fuel result bitsRead bytePos bitPos).2.1 * 8
          + (readLoop buffer bitCount fuel result bitsRead bytePos bitPos).2.2
          = bytePos * 8 + bitPos + (bitCount - bitsRead))
      ∧ (readLoop buffer bitCount fuel result bitsRead bytePos bitPos).2.2 ≤ 7
      ∧ ∀ j, (readLoop buffer bitCount fuel result bitsRead bytePos bitPos).1.testBit j
          = (result.testBit j
             || (decide (j < bitCount - bitsRead)
                 && streamBit buffer
                      (bytePos * 8 + bitPos + (bitCount - bitsRead - 1 - j)))) := by
  intro fuel
  induction fuel with
  | zero =>
    intro result bitsRead bytePos bitPos hble hfuel hbit hbound
    have heq : bitCount - bitsRead = 0 := Nat.le_zero.mp hfuel
    simp [readLoop, heq, hbit]
  | succ fuel ih =>
    intro result bitsRead bytePos bitPos hble hfuel hbit hbound
    by_cases hlt : bitsRead < bitCount
    case neg =>
      have heq : bitCount - bitsRead = 0 := by omega
      simp [readLoop, hlt, heq, hbit]
    case pos =>
      have hrem1 : 1 ≤ bitCount - bitsRead := by omega
      have hBlen : ¬ (buffer.length ≤ bytePos) := by omega
      set btw := min (bitCount - bitsRead) (8 - bitPos) with hbtwdef
      have hbtw_le1 : btw ≤ bitCount - bitsRead := Nat.min_le_left _ _
      have hbtw_le2 : btw ≤ 8 - bitPos := Nat.min_le_right _ _
      have hbtw_ge : 1 ≤ btw := le_min hrem1 (by omega)
      set byte := buffer.getD bytePos 0 with hbytedef
      have key : ∀ B2 t2, B2 * 8 + t2 = bytePos * 8 + bitPos + btw → t2 ≤ 7 →
          ((readLoop buffer bitCount fuel
              (result ||| (((byte >>> (8 - bitPos - btw)) &&& ((1 <<< btw) - 1)) <<<
                (bitCount - bitsRead - btw))) (bitsRead + btw) B2 t2).2.1 * 8
            + (readLoop buffer bitCount fuel
              (result ||| (((byte >>> (8 - bitPos - btw)) &&& ((1 <<< btw) - 1)) <<<
                (bitCount - bitsRead - btw))) (bitsRead + btw) B2 t2).2.2
            = bytePos * 8 + bitPos + (bitCount - bitsRead))
          ∧ (readLoop buffer bitCount fuel
              (result ||| (((byte >>> (8 - bitPos - btw)) &&& ((1 <<< btw) - 1)) <<<
                (bitCount - bitsRead - btw))) (bitsRead + btw) B2 t2).2.2 ≤ 7
          ∧ ∀ j, (readLoop buffer bitCount fuel
              (result ||| (((byte >>> (8 - bitPos - btw)) &&& ((1 <<< btw) - 1)) <<<
                (bitCount - bitsRead - btw))) (bitsRead + btw) B2 t2).1.testBit j
              = (result.testBit j
                || (decide (j < bitCount - bitsRead)
                    && streamBit buffer
                        (bytePos * 8 + bitPos + (bitCount - bitsRead - 1 - j)))) := by
        intro B2 t2 hpos2 ht2
        obtain ⟨P1, P2, P3⟩ := ih
          (result ||| (((byte >>> (8 - bitPos - btw)) &&& ((1 <<< btw) - 1)) <<<
            (bitCount - bitsRead - btw)))
          (bitsRead + btw) B2 t2 (by omega) (by omega) ht2 (by omega)
        refine ⟨by omega, P2, ?_⟩
        intro j
        rw [P3 j, Nat.testBit_lor, Nat.testBit_shiftLeft, Nat.testBit_land,
          Nat.testBit_shiftRight, Nat.one_shiftLeft, Nat.testBit_two_pow_sub_one]
        by_cases hjd : j < bitCount - bitsRead - btw
        · have h1 : ¬ (j ≥ bitCount - bitsRead - btw) := by omega
          have h2 : j < bitCount - (bitsRead + btw) := by omega
          have h3 : j < bitCount - bitsRead := by omega
          have hidx : B2 * 8 + t2 + (bitCount - (bitsRead + btw) - 1 - j)
              = bytePos * 8 + bitPos + (bitCount - bitsRead - 1 - j) := by omega
          simp [h1, h2, h3, hidx]
        · by_cases hjrem : j < bitCount - bitsRead
          · have h1 : j ≥ bitCount - bitsRead - btw := by omega
            have h2 : ¬ (j < bitCount - (bitsRead + btw)) := by omega
            have h3 : j - (bitCount - bitsRead - btw) < btw := by omega
            have hbitv : byte.testBit
                  (8 - bitPos - btw + (j - (bitCount - bitsRead - btw)))
                = streamBit buffer
                    (bytePos * 8 + bitPos + (bitCount - bitsRead - 1 - j)) := by
              unfold streamBit
              have hd : (bytePos * 8 + bitPos + (bitCount - bitsRead - 1 - j)) / 8
                  = bytePos := by omega
              have hm : (bytePos * 8 + bitPos + (bitCount - bitsRead - 1 - j)) % 8
                  = bitPos + (bitCount - bitsRead - 1 - j) := by omega
              have ha : 8 - bitPos - btw + (j - (bitCount - bitsRead - btw))
                  = 7 - (bitPos + (bitCount - bitsRead - 1 - j)) := by omega
              rw [hd, hm, ha, hbytedef]
            simp only [h2, decide_False, Bool.false_and, Bool.or_false, hjrem,
              decide_True, Bool.true_and, ge_iff_le, h1, h3]
            rw [hbitv]
            simp
          · have h2 : ¬ (j < bitCount - (bitsRead + btw)) := by omega
            have h3 : ¬ (j - (bitCount - bitsRead - btw) < btw) := by omega
            simp [h2, h3, hjrem]
      rw [readLoop_succ, if_pos hlt, if_neg hBlen]
      by_cases hcarry : bitPos + btw = 8
      · rw [if_pos hcarry]
        exact key (bytePos + 1) 0 (by omega) (by omega)
      · rw [if_neg hcarry]
        exact key bytePos (bitPos + btw) (by omega) (by omega)

theorem streamBit_set (buffer : List Nat) (B nb i : Nat) (hB : B < buffer.length) :
    streamBit (buffer.set B nb) i
    = if i / 8 = B then nb.testBit (7 - i % 8) else streamBit buffer i := by
  unfold streamBit
  rw [List.getD_eq_getElem?_getD, List.getD_eq_getElem?_getD, List.getElem?_set]
  by_cases h : i / 8 = B
  · rw [if_pos h.symm, if_pos h, if_pos (h ▸ hB)]
    rfl
  · rw [if_neg (fun hc => h hc.symm), if_neg h]

theorem streamBit_append_zeros (buffer : List Nat) (k i : Nat) :
    streamBit (buffer ++ List.replicate k 0) i = streamBit buffer i := by
  unfold streamBit
  rw [List.getD_eq_getElem?_getD, List.getD_eq_getElem?_getD]
  by_cases h : i / 8 < buffer.length
  · rw [List.getElem?_append]
    rw [if_pos h]
  · rw [List.getElem?_append_right (Nat.le_of_not_lt h), List.getElem?_replicate]
    have h2 : buffer[i / 8]? = none := by
      rw [List.getElem?_eq_none_iff]
      omega
    rw [h2]
    by_cases h3 : i / 8 - buffer.length < k
    · rw [if_pos h3]
      simp
    · rw [if_neg h3]

theorem writeChunkByte_testBit (value : Int) (oldByte shift btw byteShift : Nat)
    (m : Nat) :
    (writeChunkByte value oldByte shift btw byteShift).testBit m
    = if byteShift ≤ m ∧ m < byteShift + btw then intBit value (shift + (m - byteShift))
      else (oldByte.testBit m && decide (m < 8)) := by
  unfold writeChunkByte
  rw [Nat.testBit_lor, Nat.testBit_land, intAndNat_testBit, intBit_pyNot,
    Nat.testBit_shiftLeft, Nat.testBit_shiftLeft, Nat.testBit_shiftRight,
    intAndNat_testBit, Nat.testBit_shiftLeft, Nat.one_shiftLeft,
    Nat.testBit_two_pow_sub_one, Nat.testBit_two_pow_sub_one]
  have h255 : ∀ q : Nat, (255 : Nat).testBit q = decide (q < 8) := by
    intro q
    rw [show (255 : Nat) = 2 ^ 8 - 1 by norm_num, Nat.testBit_two_pow_sub_one]
  rw [h255]
  by_cases hin : byteShift ≤ m ∧ m < byteShift + btw
  · rw [if_pos hin]
    have h1 : (decide (m ≥ byteShift) && decide (m - byteShift < btw)) = true := by
      simp only [Bool.and_eq_true, decide_eq_true_eq]
      omega
    have h2 : decide (shift + (m - byteShift) ≥ shift) = true := by
      simp only [decide_eq_true_eq]
      omega
    have h3 : decide (shift + (m - byteShift) - shift < btw) = true := by
      simp only [decide_eq_true_eq]
      omega
    rw [h1, h2, h3]
    simp [hin.1]
  · rw [if_neg hin]
    have h1 : (decide (m ≥ byteShift) && decide (m - byteShift < btw)) = false := by
      simp only [Bool.and_eq_false_iff, decide_eq_false_iff_not]
      omega
    rw [h1]
    by_cases h2 : byteShift ≤ m
    · have h3 : ¬ (m - byteShift < btw) := by omega
      have h4 : decide (shift + (m - byteShift) - shift < btw) = false := by
        simp only [decide_eq_false_iff_not]
        omega
      rw [h4]
      simp
    · have h4 : decide (m ≥ byteShift) = false := by
        simp only [decide_eq_false_iff_not]
        omega
      rw [h4]
      simp

theorem writeLoop_succ (value : Int) (bitCount fuel : Nat) (buffer : List Nat)
    (bitsWritten bytePos bitPos : Nat) :
    writeLoop value bitCount (fuel + 1) buffer bitsWritten bytePos bitPos
    = if bitsWritten < bitCount then
        if bitPos + min (bitCount - bitsWritten) (8 - bitPos) = 8 then
          writeLoop value bitCount fuel
            (buffer.set bytePos (writeChunkByte value (buffer.getD bytePos 0)
              (bitCount - bitsWritten - min (bitCount - bitsWritten) (8 - bitPos))
              (min (bitCount - bitsWritten) (8 - bitPos))
              (8 - bitPos - min (bitCount - bitsWritten) (8 - bitPos))))
            (bitsWritten + min (bitCount - bitsWritten) (8 - bitPos)) (bytePos + 1) 0
        else
          writeLoop value bitCount fuel
            (buffer.set bytePos (writeChunkByte value (buffer.getD bytePos 0)
              (bitCount - bitsWritten - min (bitCount - bitsWritten) (8 - bitPos))
              (min (bitCount - bitsWritten) (8 - bitPos))
              (8 - bitPos - min (bitCount - bitsWritten) (8 - bitPos))))
            (bitsWritten + min (bitCount - bitsWritten) (8 - bitPos)) bytePos
            (bitPos + min (bitCount - bitsWritten) (8 - bitPos))
      else (buffer, bytePos, bitPos) := rfl

theorem writeLoop_spec (value : Int) (bitCount : Nat) :
    ∀ (fuel : Nat) (buffer : List Nat) (bitsWritten bytePos bitPos : Nat),
      bitsWritten ≤ bitCount →
      bitCount - bitsWritten ≤ fuel →
      bitPos ≤ 7 →
      bytePos * 8 + bitPos + (bitCount - bitsWritten) ≤ 8 * buffer.length →
      ((writeLoop value bitCount fuel buffer bitsWritten bytePos bitPos).2.1 * 8
          + (writeLoop value bitCount fuel buffer bitsWritten bytePos bitPos).2.2
          = bytePos * 8 + bitPos + (bitCount - bitsWritten))
      ∧ (writeLoop value bitCount fuel buffer bitsWritten bytePos bitPos).2.2 ≤ 7
      ∧ (writeLoop value bitCount fuel buffer bitsWritten bytePos bitPos).1.length
          = buffer.length
      ∧ ∀ i, streamBit (writeLoop value bitCount fuel buffer bitsWritten bytePos bitPos).1 i
          = if bytePos * 8 + bitPos ≤ i ∧ i < bytePos * 8 + bitPos + (bitCount - bitsWritten)
            then intBit value (bitCount - bitsWritten - 1 - (i - (bytePos * 8 + bitPos)))
            else streamBit buffer i := by
  intro fuel
  induction fuel with
  | zero =>
    intro buffer bitsWritten bytePos bitPos hble hfuel hbit hbound
    have heq : bitCount - bitsWritten = 0 := Nat.le_zero.mp hfuel
    refine ⟨by simp [writeLoop, heq], by simp [writeLoop, hbit], by simp [writeLoop], ?_⟩
    intro i
    have hni : ¬ (bytePos * 8 + bitPos ≤ i ∧ i < bytePos * 8 + bitPos + (bitCount - bitsWritten)) := by
      omega
    simp [writeLoop, hni]
  | succ fuel ih =>
    intro buffer bitsWritten bytePos bitPos hble hfuel hbit hbound
    by_cases hlt : bitsWritten < bitCount
    case neg =>
      have heq : bitCount - bitsWritten = 0 := by omega
      refine ⟨by simp [writeLoop, hlt, heq], by simp [writeLoop, hlt, hbit],
        by simp [writeLoop, hlt], ?_⟩
      intro i
      have hni : ¬ (bytePos * 8 + bitPos ≤ i ∧ i < bytePos * 8 + bitPos + (bitCount - bitsWritten)) := by
        omega
      simp [writeLoop, hlt, hni]
    case pos =>
      have hrem1 : 1 ≤ bitCount - bitsWritten := by omega
      have hB : bytePos < buffer.length := by omega
      set btw := min (bitCount - bitsWritten) (8 - bitPos) with hbtwdef
      have hbtw_le1 : btw ≤ bitCount - bitsWritten := Nat.min_le_left _ _
      have hbtw_le2 : btw ≤ 8 - bitPos := Nat.min_le_right _ _
      have hbtw_ge : 1 ≤ btw := le_min hrem1 (by omega)
      set nb := writeChunkByte value (buffer.getD bytePos 0)
        (bitCount - bitsWritten - btw) btw (8 - bitPos - btw) with hnbdef
      have hstep : ∀ i, streamBit (buffer.set bytePos nb) i
          = if bytePos * 8 + bitPos ≤ i ∧ i < bytePos * 8 + bitPos + btw
            then intBit value (bitCount - bitsWritten - 1 - (i - (bytePos * 8 + bitPos)))
            else streamBit buffer i := by
        intro i
        rw [streamBit_set buffer bytePos nb i hB]
        by_cases hdiv : i / 8 = bytePos
        · rw [if_pos hdiv, hnbdef,
            writeChunkByte_testBit value _ _ _ _ (7 - i % 8)]
          by_cases hin : bytePos * 8 + bitPos ≤ i ∧ i < bytePos * 8 + bitPos + btw
          · rw [if_pos hin]
            have hc : 8 - bitPos - btw ≤ 7 - i % 8 ∧ 7 - i % 8 < 8 - bitPos - btw + btw := by
              omega
            rw [if_pos hc]
            congr 1
            omega
          · rw [if_neg hin]
            have hc : ¬ (8 - bitPos - btw ≤ 7 - i % 8 ∧ 7 - i % 8 < 8 - bitPos - btw + btw) := by
              omega
            rw [if_neg hc]
            have hm8 : decide (7 - i % 8 < 8) = true := by
              simp only [decide_eq_true_eq]
              omega
            rw [hm8, Bool.and_true]
            unfold streamBit
            rw [hdiv]
        · rw [if_neg hdiv]
          have hni : ¬ (bytePos * 8 + bitPos ≤ i ∧ i < bytePos * 8 + bitPos + btw) := by
            omega
          rw [if_neg hni]
      have key : ∀ B2 t2, B2 * 8 + t2 = bytePos * 8 + bitPos + btw → t2 ≤ 7 →
          ((writeLoop value bitCount fuel (buffer.set bytePos nb)
              (bitsWritten + btw) B2 t2).2.1 * 8
            + (writeLoop value bitCount fuel (buffer.set bytePos nb)
              (bitsWritten + btw) B2 t2).2.2
            = bytePos * 8 + bitPos + (bitCount - bitsWritten))
          ∧ (writeLoop value bitCount fuel (buffer.set bytePos nb)
              (bitsWritten + btw) B2 t2).2.2 ≤ 7
          ∧ (writeLoop value bitCount fuel (buffer.set bytePos nb)
              (bitsWritten + btw) B2 t2).1.length = buffer.length
          ∧ ∀ i, streamBit (writeLoop value bitCount fuel (buffer.set bytePos nb)
              (bitsWritten + btw) B2 t2).1 i
              = if bytePos * 8 + bitPos ≤ i ∧ i < bytePos * 8 + bitPos + (bitCount - bitsWritten)
                then intBit value (bitCount - bitsWritten - 1 - (i - (bytePos * 8 + bitPos)))
                else streamBit buffer i := by
        intro B2 t2 hpos2 ht2
        obtain ⟨P1, P2, P3, P4⟩ := ih (buffer.set bytePos nb) (bitsWritten + btw) B2 t2
          (by omega) (by omega) ht2 (by rw [List.length_set]; omega)
        refine ⟨by omega, P2, by rw [P3, List.length_set], ?_⟩
        intro i
        rw [P4 i]
        by_cases h1 : B2 * 8 + t2 ≤ i ∧ i < B2 * 8 + t2 + (bitCount - (bitsWritten + btw))
        · rw [if_pos h1]
          have h2 : bytePos * 8 + bitPos ≤ i ∧
              i < bytePos * 8 + bitPos + (bitCount - bitsWritten) := by omega
          rw [if_pos h2]
          congr 1
          omega
        · rw [if_neg h1, hstep i]
          by_cases h3 : bytePos * 8 + bitPos ≤ i ∧ i < bytePos * 8 + bitPos + btw
          · rw [if_pos h3]
            have h4 : bytePos * 8 + bitPos ≤ i ∧
                i < bytePos * 8 + bitPos + (bitCount - bitsWritten) := by omega
            rw [if_pos h4]
          · rw [if_neg h3]
            have h4 : ¬ (bytePos * 8 + bitPos ≤ i ∧
                i < bytePos * 8 + bitPos + (bitCount - bitsWritten)) := by omega
            rw [if_neg h4]
      rw [writeLoop_succ, if_pos hlt]
      by_cases hcarry : bitPos + btw = 8
      · rw [if_pos hcarry]
        exact key (bytePos + 1) 0 (by omega) (by omega)
      · rw [if_neg hcarry]
        exact key bytePos (bitPos + btw) (by omega) (by omega)

theorem Inv_from_bytes (data : List Nat) : Inv (from_bytes data) := by
  unfold Inv from_bytes position
  simp
  omega

theorem read_bits_spec (s : BitStream) (n : Nat) (hInv : Inv s)
    (h1 : 1 ≤ n) (h2 : n ≤ 64) (h3 : position s + n ≤ s.bitLength) :
    ∃ r, read_bits s n
        = (.ok r, { s with bytePos := (position s + n) / 8, bitPos := (position s + n) % 8 })
      ∧ ∀ j, r.testBit j = (decide (j < n) && streamBit s.buffer (position s + (n - 1 - j))) := by
  obtain ⟨hL, hP, hb⟩ := hInv
  have hpos : position s = s.bytePos * 8 + s.bitPos := rfl
  have hg1 : ¬ (n = 0 ∨ 64 < n) := by omega
  have hg2 : ¬ (s.bitLength < position s + n) := by omega
  have hg3 : ¬ (s.buffer.length ≤ s.bytePos) := by omega
  obtain ⟨P1, P2, P3⟩ := readLoop_spec s.buffer n n 0 0 s.bytePos s.bitPos
    (by omega) (by omega) hb (by omega)
  have e1 : (readLoop s.buffer n n 0 0 s.bytePos s.bitPos).2.1 = (position s + n) / 8 := by
    omega
  have e2 : (readLoop s.buffer n n 0 0 s.bytePos s.bitPos).2.2 = (position s + n) % 8 := by
    omega
  refine ⟨(readLoop s.buffer n n 0 0 s.bytePos s.bitPos).1, ?_, ?_⟩
  · rw [← e1, ← e2]
    unfold read_bits
    rw [if_neg hg1, if_neg hg2, if_neg hg3]
  · intro j
    rw [P3 j]
    simp [hpos]

theorem write_bits_spec (s : BitStream) (v : Int) (n : Nat) (hInv : Inv s)
    (h1 : 1 ≤ n) (h2 : n ≤ 64) :
    (write_bits s v n).1 = .ok ()
    ∧ (write_bits s v n).2.bytePos = (position s + n) / 8
    ∧ (write_bits s v n).2.bitPos = (position s + n) % 8
    ∧ (write_bits s v n).2.bitLength = max s.bitLength (position s + n)
    ∧ (write_bits s v n).2.buffer.length = max s.buffer.length ((position s + n + 7) / 8)
    ∧ ∀ i, streamBit (write_bits s v n).2.buffer i
        = if position s ≤ i ∧ i < position s + n
          then intBit v (n - 1 - (i - position s))
          else streamBit s.buffer i := by
  obtain ⟨hL, hP, hb⟩ := hInv
  have hpos : position s = s.bytePos * 8 + s.bitPos := rfl
  have hg1 : ¬ (n = 0 ∨ 64 < n) := by omega
  have hlen0 : (grownBuffer s n).length = max s.buffer.length ((position s + n + 7) / 8) := by
    unfold grownBuffer
    split
    · rw [List.length_append, List.length_replicate]
      omega
    · omega
  have hsb0 : ∀ i, streamBit (grownBuffer s n) i = streamBit s.buffer i := by
    intro i
    unfold grownBuffer
    split
    · exact streamBit_append_zeros s.buffer _ i
    · rfl
  obtain ⟨P1, P2, P3, P4⟩ := writeLoop_spec v n n (grownBuffer s n) 0 s.bytePos s.bitPos
    (by omega) (by omega) hb (by omega)
  have hw : write_bits s v n
      = (.ok (),
        { buffer := (writeLoop v n n (grownBuffer s n) 0 s.bytePos s.bitPos).1,
          bytePos := (writeLoop v n n (grownBuffer s n) 0 s.bytePos s.bitPos).2.1,
          bitPos := (writeLoop v n n (grownBuffer s n) 0 s.bytePos s.bitPos).2.2,
          bitLength :=
            if s.bitLength <
                (writeLoop v n n (grownBuffer s n) 0 s.bytePos s.bitPos).2.1 * 8 +
                  (writeLoop v n n (grownBuffer s n) 0 s.bytePos s.bitPos).2.2
            then (writeLoop v n n (grownBuffer s n) 0 s.bytePos s.bitPos).2.1 * 8 +
                  (writeLoop v n n (grownBuffer s n) 0 s.bytePos s.bitPos).2.2
            else s.bitLength }) := by
    unfold write_bits
    rw [if_neg hg1]
  rw [hw]
  refine ⟨rfl, by simp only []; omega, by simp only []; omega,
    by simp only []; split <;> omega,
    by simp only []; rw [P3, hlen0], ?_⟩
  intro i
  simp only []
  rw [P4 i, hsb0 i]
  rw [hpos]
  simp

theorem set_position_spec (s : BitStream) (p : Nat) (h : p ≤ s.bitLength) :
    set_position s p = (.ok (), { s with bytePos := p / 8, bitPos := p % 8 }) := by
  unfold set_position
  rw [if_neg (by omega)]

theorem Inv_write_bits (s : BitStream) (v : Int) (n : Nat) (hInv : Inv s)
    (h1 : 1 ≤ n) (h2 : n ≤ 64) : Inv (write_bits s v n).2 := by
  obtain ⟨_, Q1, Q2, Q3, Q4, _⟩ := write_bits_spec s v n hInv h1 h2
  obtain ⟨hL, hP, hb⟩ := hInv
  have hpos : position s = s.bytePos * 8 + s.bitPos := rfl
  constructor
  · rw [Q3, Q4]
    omega
  constructor
  · unfold position
    rw [Q1, Q2, Q3]
    omega
  · rw [Q2]
    omega

theorem Inv_set_position (s : BitStream) (p : Nat) (h : p ≤ s.bitLength)
    (hInv : Inv s) : Inv (set_position s p).2 := by
  rw [set_position_spec s p h]
  obtain ⟨hL, hP, hb⟩ := hInv
  have hpos : position s = s.bytePos * 8 + s.bitPos := rfl
  refine ⟨hL, ?_, by simp; omega⟩
  unfold position
  simp
  omega

theorem write_read_roundtrip (s : BitStream) (v : Int) (n : Nat)
    (hInv : Inv s) (h1 : 1 ≤ n) (h2 : n ≤ 64) :
    (write_bits s v n).1 = .ok ()
    ∧ (set_position (write_bits s v n).2 (position s)).1 = .ok ()
    ∧ (read_bits (set_position (write_bits s v n).2 (position s)).2 n).1
        = .ok ((v % (2 : Int) ^ n).toNat)
    ∧ position (set_position (write_bits s v n).2 (position s)).2 = position s
    ∧ Inv (set_position (write_bits s v n).2 (position s)).2
    ∧ (set_position (write_bits s v n).2 (position s)).2.bitLength
        = max s.bitLength (position s + n)
    ∧ ∀ i, streamBit (set_position (write_bits s v n).2 (position s)).2.buffer i
        = if position s ≤ i ∧ i < position s + n
          then intBit v (n - 1 - (i - position s))
          else streamBit s.buffer i := by
  obtain ⟨W0, W1, W2, W3, W4, W5⟩ := write_bits_spec s v n hInv h1 h2
  have hInv1 := Inv_write_bits s v n hInv h1 h2
  have hple : position s ≤ (write_bits s v n).2.bitLength := by
    rw [W3]
    omega
  have hsp := set_position_spec (write_bits s v n).2 (position s) hple
  have hInv2 := Inv_set_position (write_bits s v n).2 (position s) hple hInv1
  have hpos2 : position (set_position (write_bits s v n).2 (position s)).2 = position s := by
    rw [hsp]
    unfold position
    simp
    omega
  have hbuf : (set_position (write_bits s v n).2 (position s)).2.buffer
      = (write_bits s v n).2.buffer := by
    rw [hsp]
  have hbl : (set_position (write_bits s v n).2 (position s)).2.bitLength
      = (write_bits s v n).2.bitLength := by
    rw [hsp]
  have h3 : position (set_position (write_bits s v n).2 (position s)).2 + n
      ≤ (set_position (write_bits s v n).2 (position s)).2.bitLength := by
    rw [hpos2, hbl, W3]
    omega
  obtain ⟨r, hr, hrbits⟩ := read_bits_spec _ n hInv2 h1 h2 h3
  have hrv : r = ((v % (2 : Int) ^ n).toNat) := by
    apply Nat.eq_of_testBit_eq
    intro j
    rw [hrbits j, toNat_emod_two_pow_testBit, hpos2, hbuf]
    by_cases hj : j < n
    · rw [W5 (position s + (n - 1 - j)),
        if_pos (by constructor <;> omega)]
      have hidx : n - 1 - (position s + (n - 1 - j) - position s) = j := by omega
      rw [hidx]
    · simp [hj]
  refine ⟨W0, by rw [hsp], by rw [hr, hrv], hpos2, hInv2, by rw [hbl, W3], ?_⟩
  intro i
  rw [hbuf]
  exact W5 i

theorem u128_write_delegate (s : BitStream) (v : Int) (n : Nat)
    (h1 : 1 ≤ n) (h2 : n ≤ 64) : write_bits_u128 s v n = write_bits s v n := by
  unfold write_bits_u128
  rw [if_neg (by omega), if_pos h2]

theorem u128_read_delegate (s : BitStream) (n : Nat)
    (h1 : 1 ≤ n) (h2 : n ≤ 64) : read_bits_u128 s n = read_bits s n := by
  unfold read_bits_u128
  rw [if_neg (by omega), if_pos h2]

theorem mask64_testBit (j : Nat) : ((1 <<< 64 : Nat) - 1).testBit j = decide (j < 64) := by
  rw [Nat.one_shiftLeft, Nat.testBit_two_pow_sub_one]

theorem Inv_read_bits (s : BitStream) (n : Nat) (hInv : Inv s)
    (h1 : 1 ≤ n) (h2 : n ≤ 64) (h3 : position s + n ≤ s.bitLength) :
    Inv (read_bits s n).2 := by
  obtain ⟨r, hr, _⟩ := read_bits_spec s n hInv h1 h2 h3
  rw [hr]
  obtain ⟨hL, hP, hb⟩ := hInv
  have hpos : position s = s.bytePos * 8 + s.bitPos := rfl
  refine ⟨hL, ?_, by simp; omega⟩
  unfold position
  simp
  omega

theorem read_bits_u128_spec (s : BitStream) (n : Nat) (hInv : Inv s)
    (h1 : 1 ≤ n) (h2 : n ≤ 128) (h3 : position s + n ≤ s.bitLength) :
    ∃ r, read_bits_u128 s n
        = (.ok r, { s with bytePos := (position s + n) / 8, bitPos := (position s + n) % 8 })
      ∧ ∀ j, r.testBit j = (decide (j < n) && streamBit s.buffer (position s + (n - 1 - j))) := by
  by_cases h64 : n ≤ 64
  · rw [u128_read_delegate s n h1 h64]
    exact read_bits_spec s n hInv h1 h64 h3
  · obtain ⟨rh, hr1, hr1bits⟩ := read_bits_spec s (n - 64) hInv (by omega) (by omega)
      (by omega)
    have hInv1 : Inv (read_bits s (n - 64)).2 :=
      Inv_read_bits s (n - 64) hInv (by omega) (by omega) (by omega)
    rw [hr1] at hInv1
    have hpos1 : position ({ s with bytePos := (position s + (n - 64)) / 8, bitPos := (position s + (n - 64)) % 8 } : BitStream) = position s + (n - 64) := by
      unfold position
      simp
      omega
    obtain ⟨rl, hr2, hr2bits⟩ := read_bits_spec
      ({ s with bytePos := (position s + (n - 64)) / 8, bitPos := (position s + (n - 64)) % 8 } : BitStream) 64 hInv1 (by omega) (by omega)
      (by rw [hpos1]; simp only []; omega)
    have hg1 : ¬ (n = 0 ∨ 128 < n) := by omega
    have hg3 : ¬ (s.bitLength < position s + n) := by omega
    refine ⟨(rh <<< 64) ||| rl, ?_, ?_⟩
    · unfold read_bits_u128
      rw [if_neg hg1, if_neg (show ¬ n ≤ 64 from h64), if_neg hg3, hr1]
      simp [hr2, hpos1, BitStream.mk.injEq]
      omega
    · intro j
      rw [Nat.testBit_lor, Nat.testBit_shiftLeft]
      by_cases hj64 : j < 64
      · have h1 : decide (j ≥ 64) = false := by
          simp only [decide_eq_false_iff_not]
          omega
        rw [h1, hr2bits j, hpos1]
        have hidx : position s + (n - 64) + (64 - 1 - j) = position s + (n - 1 - j) := by
          omega
        rw [hidx]
        simp [hj64]
        omega
      · have h1 : decide (j ≥ 64) = true := by
          simp only [decide_eq_true_eq]
          omega
        rw [h1, hr1bits (j - 64)]
        have hidx : position s + (n - 64 - 1 - (j - 64)) = position s + (n - 1 - j) := by
          omega
        rw [hidx]
        have h2 : rl.testBit j = false := by
          rw [hr2bits j]
          simp
          omega
        rw [h2]
        have h3 : decide (j - 64 < n - 64) = decide (j < n) := by
          by_cases hc : j < n
          · simp [hc]
            omega
          · simp [hc]
            omega
        rw [h3]
        simp

theorem write_bits_u128_spec (s : BitStream) (v : Int) (n : Nat) (hInv : Inv s)
    (h1 : 1 ≤ n) (h2 : n ≤ 128) :
    (write_bits_u128 s v n).1 = .ok ()
    ∧ position (write_bits_u128 s v n).2 = position s + n
    ∧ (write_bits_u128 s v n).2.bitLength = max s.bitLength (position s + n)
    ∧ Inv (write_bits_u128 s v n).2
    ∧ ∀ i, streamBit (write_bits_u128 s v n).2.buffer i
        = if position s ≤ i ∧ i < position s + n
          then intBit v (n - 1 - (i - position s))
          else streamBit s.buffer i := by
  have hpos : position s = s.bytePos * 8 + s.bitPos := rfl
  by_cases h64 : n ≤ 64
  · rw [u128_write_delegate s v n h1 h64]
    obtain ⟨W0, W1, W2, W3, W4, W5⟩ := write_bits_spec s v n hInv h1 h64
    have hInv1 := Inv_write_bits s v n hInv h1 h64
    refine ⟨W0, ?_, W3, hInv1, W5⟩
    unfold position
    rw [W1, W2]
    omega
  · obtain ⟨A0, A1, A2, A3, A4, A5⟩ :=
      write_bits_spec s (v >>> (64 : Nat)) (n - 64) hInv (by omega) (by omega)
    have hInv1 := Inv_write_bits s (v >>> (64 : Nat)) (n - 64) hInv (by omega) (by omega)
    have hpos1 : position (write_bits s (v >>> (64 : Nat)) (n - 64)).2 = position s + (n - 64) := by
      unfold position
      rw [A1, A2]
      omega
    obtain ⟨B0, B1, B2, B3, B4, B5⟩ :=
      write_bits_spec (write_bits s (v >>> (64 : Nat)) (n - 64)).2
        ((intAndNat v ((1 <<< 64) - 1) : Nat) : Int) 64 hInv1 (by omega) (by omega)
    have hInv2 := Inv_write_bits (write_bits s (v >>> (64 : Nat)) (n - 64)).2
      ((intAndNat v ((1 <<< 64) - 1) : Nat) : Int) 64 hInv1 (by omega) (by omega)
    have hw1 : write_bits s (v >>> (64 : Nat)) (n - 64)
        = (.ok (), (write_bits s (v >>> (64 : Nat)) (n - 64)).2) := by
      rw [← A0]
    have hw2 : write_bits (write_bits s (v >>> (64 : Nat)) (n - 64)).2
          ((intAndNat v ((1 <<< 64) - 1) : Nat) : Int) 64
        = (.ok (), (write_bits (write_bits s (v >>> (64 : Nat)) (n - 64)).2
            ((intAndNat v ((1 <<< 64) - 1) : Nat) : Int) 64).2) := by
      rw [← B0]
    have hgu1 : ¬ (n = 0 ∨ 128 < n) := by omega
    have hu : write_bits_u128 s v n
        = (.ok (), (write_bits (write_bits s (v >>> (64 : Nat)) (n - 64)).2
            ((intAndNat v ((1 <<< 64) - 1) : Nat) : Int) 64).2) := by
      unfold write_bits_u128
      rw [if_neg hgu1, if_neg h64, hw1]
      conv_lhs => whnf
      rw [hw2]
      exact rfl
    rw [hu]
    refine ⟨rfl, ?_, ?_, hInv2, ?_⟩
    · simp only []
      unfold position
      rw [B1, B2, hpos1]
      omega
    · simp only []
      rw [B3, hpos1, A3]
      omega
    · intro i
      simp only []
      rw [B5 i, hpos1]
      by_cases hlow : position s + (n - 64) ≤ i ∧ i < position s + (n - 64) + 64
      · rw [if_pos hlow, if_pos (by omega)]
        rw [intBit_natCast, intAndNat_testBit, mask64_testBit]
        have hd : decide (64 - 1 - (i - (position s + (n - 64))) < 64) = true := by
          simp only [decide_eq_true_eq]
          omega
        rw [hd, Bool.and_true]
        have hidx : 64 - 1 - (i - (position s + (n - 64))) = n - 1 - (i - position s) := by
          omega
        rw [hidx]
      · rw [if_neg hlow, A5 i]
        by_cases hhigh : position s ≤ i ∧ i < position s + (n - 64)
        · rw [if_pos hhigh, if_pos (by omega)]
          rw [intBit_shiftRight]
          have hidx : 64 + (n - 64 - 1 - (i - position s)) = n - 1 - (i - position s) := by
            omega
          rw [hidx]
        · rw [if_neg hhigh, if_neg (by omega)]

theorem write_read_roundtrip_u128 (s : BitStream) (v : Int) (n : Nat)
    (hInv : Inv s) (h1 : 1 ≤ n) (h2 : n ≤ 128) :
    (write_bits_u128 s v n).1 = .ok ()
    ∧ (set_position (write_bits_u128 s v n).2 (position s)).1 = .ok ()
    ∧ (read_bits_u128 (set_position (write_bits_u128 s v n).2 (position s)).2 n).1
        = .ok ((v % (2 : Int) ^ n).toNat) := by
  obtain ⟨U0, U1, U2, U3, U4⟩ := write_bits_u128_spec s v n hInv h1 h2
  have hple : position s ≤ (write_bits_u128 s v n).2.bitLength := by
    rw [U2]
    omega
  have hsp := set_position_spec _ (position s) hple
  have hInv2 := Inv_set_position _ (position s) hple U3
  have hpos2 : position (set_position (write_bits_u128 s v n).2 (position s)).2
      = position s := by
    rw [hsp]
    unfold position
    simp
    omega
  have hbuf : (set_position (write_bits_u128 s v n).2 (position s)).2.buffer
      = (write_bits_u128 s v n).2.buffer := by
    rw [hsp]
  have hbl : (set_position (write_bits_u128 s v n).2 (position s)).2.bitLength
      = (write_bits_u128 s v n).2.bitLength := by
    rw [hsp]
  obtain ⟨r, hrr, hrbits⟩ := read_bits_u128_spec _ n hInv2 h1 h2
    (by rw [hpos2, hbl, U2]; omega)
  have hrv : r = ((v % (2 : Int) ^ n).toNat) := by
    apply Nat.eq_of_testBit_eq
    intro j
    rw [hrbits j, toNat_emod_two_pow_testBit, hpos2, hbuf]
    by_cases hj : j < n
    · rw [U4 (position s + (n - 1 - j)), if_pos (by constructor <;> omega)]
      have hidx : n - 1 - (position s + (n - 1 - j) - position s) = j := by omega
      rw [hidx]
    · simp [hj]
  exact ⟨U0, by rw [hsp], by rw [hrr, hrv]⟩

theorem read_bits_error (s : BitStream) (n : Nat) (e : Err)
    (h : (read_bits s n).1 = .error e) : (read_bits s n).2 = s := by
  unfold read_bits at h ⊢
  split_ifs at h ⊢ <;> first | rfl | simp at h

theorem write_bits_error (s : BitStream) (v : Int) (n : Nat) (e : Err)
    (h : (write_bits s v n).1 = .error e) : (write_bits s v n).2 = s := by
  unfold write_bits at h ⊢
  split_ifs at h ⊢ <;> first | rfl | simp at h

theorem set_position_error (s : BitStream) (p : Nat) (e : Err)
    (h : (set_position s p).1 = .error e) : (set_position s p).2 = s := by
  unfold set_position at h ⊢
  split_ifs at h ⊢ <;> first | rfl | simp at h

theorem read_bits_ok_bounds (s : BitStream) (n : Nat) (r : Nat)
    (h : (read_bits s n).1 = .ok r) :
    1 ≤ n ∧ n ≤ 64 ∧ position s + n ≤ s.bitLength := by
  by_cases g1 : n = 0 ∨ 64 < n
  · unfold read_bits at h
    rw [if_pos g1] at h
    simp at h
  · by_cases g2 : s.bitLength < position s + n
    · unfold read_bits at h
      rw [if_neg g1, if_pos g2] at h
      simp at h
    · push_neg at g1
      omega

theorem write_bits_ok_bounds (s : BitStream) (v : Int) (n : Nat)
    (h : (write_bits s v n).1 = .ok ()) : 1 ≤ n ∧ n ≤ 64 := by
  by_cases g1 : n = 0 ∨ 64 < n
  · unfold write_bits at h
    rw [if_pos g1] at h
    simp at h
  · push_neg at g1
    omega

theorem set_position_ok_bounds (s : BitStream) (p : Nat)
    (h : (set_position s p).1 = .ok ()) : p ≤ s.bitLength := by
  by_cases g1 : s.bitLength < p
  · unfold set_position at h
    rw [if_pos g1] at h
    simp at h
  · omega

theorem read_bits_u128_ok_bounds (s : BitStream) (n : Nat) (r : Nat)
    (h : (read_bits_u128 s n).1 = .ok r) :
    1 ≤ n ∧ n ≤ 128 ∧ position s + n ≤ s.bitLength := by
  by_cases g1 : n = 0 ∨ 128 < n
  · unfold read_bits_u128 at h
    rw [if_pos g1] at h
    simp at h
  · by_cases g2 : n ≤ 64
    · have hdel : read_bits_u128 s n = read_bits s n := by
        unfold read_bits_u128
        rw [if_neg g1, if_pos g2]
      rw [hdel] at h
      have := read_bits_ok_bounds s n r h
      omega
    · by_cases g3 : s.bitLength < position s + n
      · unfold read_bits_u128 at h
        rw [if_neg g1, if_neg g2, if_pos g3] at h
        simp at h
      · push_neg at g1 g3
        omega

theorem write_bits_u128_ok_bounds (s : BitStream) (v : Int) (n : Nat)
    (h : (write_bits_u128 s v n).1 = .ok ()) : 1 ≤ n ∧ n ≤ 128 := by
  by_cases g1 : n = 0 ∨ 128 < n
  · unfold write_bits_u128 at h
    rw [if_pos g1] at h
    simp at h
  · push_neg at g1
    omega

theorem Inv_read_bits_u128 (s : BitStream) (n : Nat) (hInv : Inv s)
    (h1 : 1 ≤ n) (h2 : n ≤ 128) (h3 : position s + n ≤ s.bitLength) :
    Inv (read_bits_u128 s n).2 := by
  obtain ⟨r, hr, _⟩ := read_bits_u128_spec s n hInv h1 h2 h3
  rw [hr]
  obtain ⟨hL, hP, hb⟩ := hInv
  have hpos : position s = s.bytePos * 8 + s.bitPos := rfl
  refine ⟨hL, ?_, by simp; omega⟩
  unfold position
  simp
  omega

theorem Inv_reset (s : BitStream) (hInv : Inv s) : Inv (reset s) := by
  obtain ⟨hL, hP, hb⟩ := hInv
  exact ⟨hL, by unfold position reset; simp, by unfold reset; simp⟩

theorem read_bits_u128_error (s : BitStream) (n : Nat) (e : Err) (hInv : Inv s)
    (h : (read_bits_u128 s n).1 = .error e) : (read_bits_u128 s n).2 = s := by
  by_cases g1 : n = 0 ∨ 128 < n
  · unfold read_bits_u128 at h ⊢
    rw [if_pos g1] at h ⊢
  · by_cases g2 : n ≤ 64
    · have hdel : read_bits_u128 s n = read_bits s n := by
        unfold read_bits_u128
        rw [if_neg g1, if_pos g2]
      rw [hdel] at h ⊢
      exact read_bits_error s n e h
    · by_cases g3 : s.bitLength < position s + n
      · unfold read_bits_u128 at h ⊢
        rw [if_neg g1, if_neg g2, if_pos g3] at h ⊢
      · obtain ⟨r, hr, _⟩ := read_bits_u128_spec s n hInv (by omega) (by omega) (by omega)
        rw [hr] at h
        simp at h

theorem write_bits_u128_error (s : BitStream) (v : Int) (n : Nat) (e : Err) (hInv : Inv s)
    (h : (write_bits_u128 s v n).1 = .error e) : (write_bits_u128 s v n).2 = s := by
  by_cases g1 : n = 0 ∨ 128 < n
  · unfold write_bits_u128 at h ⊢
    rw [if_pos g1] at h ⊢
  · by_cases g2 : n ≤ 64
    · have hdel : write_bits_u128 s v n = write_bits s v n := by
        unfold write_bits_u128
        rw [if_neg g1, if_pos g2]
      rw [hdel] at h ⊢
      exact write_bits_error s v n e h
    · obtain ⟨U0, _, _, _, _⟩ := write_bits_u128_spec s v n hInv (by omega) (by omega)
      rw [U0] at h
      simp at h

theorem testBit_ge_two_pow {x i : Nat} (h : x.testBit i = true) : 2 ^ i ≤ x := by
  by_contra hc
  push_neg at hc
  rw [Nat.testBit_lt_two_pow hc] at h
  exact Bool.false_ne_true h

theorem and_shift_ne_zero_iff (raw m : Nat) :
    (raw &&& (1 <<< m) ≠ 0) ↔ raw.testBit m = true := by
  rw [Nat.one_shiftLeft, Nat.and_two_pow]
  have h2 : 0 < 2 ^ m := Nat.two_pow_pos m
  cases hb : raw.testBit m
  · simp
  · simp
    try omega

theorem read_bit_value_spec (s : BitStream) (n : Nat) (signed : Bool) (hInv : Inv s)
    (h1 : 1 ≤ n) (h2 : n ≤ 128) (h3 : position s + n ≤ s.bitLength) :
    ∃ raw, (read_bits_u128 s n).1 = .ok raw
      ∧ read_bit_value s n signed
          = (.ok { value := if signed = true ∧ raw &&& (1 <<< (n - 1)) ≠ 0
                     then (raw : Int) - ((1 <<< n : Nat) : Int) else (raw : Int),
                   bit_count := n,
                   is_signed := signed && raw.testBit (n - 1) },
             (read_bits_u128 s n).2) := by
  obtain ⟨raw, hr, hbits⟩ := read_bits_u128_spec s n hInv h1 h2 h3
  have hraw2n : raw < 2 ^ n := by
    have hmod : raw % 2 ^ n = raw := by
      apply Nat.eq_of_testBit_eq
      intro j
      rw [Nat.testBit_mod_two_pow]
      by_cases hj : j < n
      · simp [hj]
      · rw [hbits j]
        simp [hj]
    rw [← hmod]
    exact Nat.mod_lt raw (Nat.two_pow_pos n)
  have hcast2n : ((1 <<< n : Nat) : Int) = (2 : Int) ^ n := by
    rw [Nat.one_shiftLeft]
    push_cast
    try ring
  have hrawI : ((raw : Nat) : Int) < (2 : Int) ^ n := by
    exact_mod_cast hraw2n
  have hpow : (2 : Int) ^ n = 2 ^ (n - 1) * 2 := by
    have hn : n = (n - 1) + 1 := by omega
    conv_lhs => rw [hn]
    rw [pow_succ]
  have hmk : BitValue.make
      (if signed = true ∧ raw &&& (1 <<< (n - 1)) ≠ 0
        then (raw : Int) - ((1 <<< n : Nat) : Int) else (raw : Int)) (some n)
      = .ok { value := if signed = true ∧ raw &&& (1 <<< (n - 1)) ≠ 0
                then (raw : Int) - ((1 <<< n : Nat) : Int) else (raw : Int),
              bit_count := n,
              is_signed := signed && raw.testBit (n - 1) } := by
    by_cases hc : signed = true ∧ raw &&& (1 <<< (n - 1)) ≠ 0
    · have hbit : raw.testBit (n - 1) = true := (and_shift_ne_zero_iff raw (n - 1)).mp hc.2
      have hge : ((2 : Int) ^ (n - 1)) ≤ (raw : Int) := by
        exact_mod_cast testBit_ge_two_pow hbit
      rw [if_pos hc]
      simp only [BitValue.make]
      rw [hcast2n]
      rw [if_neg (by omega : ¬ (n = 0 ∨ 128 < n)), if_pos (by omega : (raw : Int) - (2 : Int) ^ n < 0),
        if_neg (by omega : ¬ ((raw : Int) - (2 : Int) ^ n < -(2 : Int) ^ (n - 1)
          ∨ (2 : Int) ^ (n - 1) - 1 < (raw : Int) - (2 : Int) ^ n))]
      simp [hc.1, hbit]
      omega
    · rw [if_neg hc]
      simp only [BitValue.make]
      rw [if_neg (by omega : ¬ (n = 0 ∨ 128 < n)),
        if_neg (by omega : ¬ ((raw : Nat) : Int) < 0),
        if_neg (by omega : ¬ (((raw : Nat) : Int) < 0 ∨ (2 : Int) ^ n - 1 < ((raw : Nat) : Int)))]
      have hsgn : (signed && raw.testBit (n - 1)) = false := by
        cases hsg : signed
        · rfl
        · cases hbt : raw.testBit (n - 1)
          · simp
          · exact absurd ⟨hsg, (and_shift_ne_zero_iff raw (n - 1)).mpr hbt⟩ hc
      rw [hsgn]
      simp
  by_cases h64 : n ≤ 64
  · have hdel : read_bits_u128 s n = read_bits s n := by
      unfold read_bits_u128
      rw [if_neg (by omega), if_pos h64]
    have hrB : read_bits s n = (.ok raw, (read_bits_u128 s n).2) := by
      rw [← hdel, hr]
    refine ⟨raw, by rw [hr], ?_⟩
    unfold read_bit_value
    rw [if_pos h64, hrB]
    simp [hmk]
  · have hrB : read_bits_u128 s n = (.ok raw, (read_bits_u128 s n).2) := by
      rw [hr]
    refine ⟨raw, by rw [hr], ?_⟩
    unfold read_bit_value
    rw [if_neg h64, hrB]
    simp [hmk]

theorem map_eq_ok {α : Type} (x : Except Err α) (u : Unit)
    (h : x.map (fun _ => ()) = .ok u) : ∃ r, x = .ok r := by
  cases x with
  | error e => simp [Except.map] at h
  | ok r => exact ⟨r, rfl⟩

theorem map_eq_error {α : Type} (x : Except Err α) (e : Err)
    (h : x.map (fun _ => ()) = .error e) : x = .error e := by
  cases x with
  | error e2 => simpa [Except.map] using h
  | ok r => simp [Except.map] at h

theorem Reachable.inv {s : BitStream} (h : Reachable s) : Inv s := by
  induction h with
  | init data => exact Inv_from_bytes data
  | step s op hre hok ih =>
    cases op with
    | rd n =>
      obtain ⟨r, hr⟩ := map_eq_ok _ _ hok
      obtain ⟨g1, g2, g3⟩ := read_bits_ok_bounds s n r hr
      exact Inv_read_bits s n ih g1 g2 g3
    | rdU n =>
      obtain ⟨r, hr⟩ := map_eq_ok _ _ hok
      obtain ⟨g1, g2, g3⟩ := read_bits_u128_ok_bounds s n r hr
      exact Inv_read_bits_u128 s n ih g1 g2 g3
    | wr v n =>
      obtain ⟨g1, g2⟩ := write_bits_ok_bounds s v n hok
      exact Inv_write_bits s v n ih g1 g2
    | wrU v n =>
      obtain ⟨g1, g2⟩ := write_bits_u128_ok_bounds s v n hok
      exact (write_bits_u128_spec s v n ih g1 g2).2.2.2.1
    | setPos p =>
      exact Inv_set_position s p (set_position_ok_bounds s p hok) ih
    | resetOp =>
      exact Inv_reset s ih

end BitStream

namespace BitStreamReader

theorem readerLoop_succ (bitCount fuel result bitsRead : Nat) (r : BitStreamReader) :
    readLoop bitCount (fuel + 1) result bitsRead r
    = if bitsRead < bitCount then
        if r.bufferSize ≤ r.bytePos then
          if r.eof then
            if bitsRead = 0 then (.error .endOfStream, r) else (.ok result, r)
          else
            if (fill_buffer r).bufferSize = 0 then
              if bitsRead = 0 then (.error .endOfStream, { fill_buffer r with eof := true })
              else (.ok result, { fill_buffer r with eof := true })
            else readLoop bitCount fuel result bitsRead (fill_buffer r)
        else
          if r.bitPos + min (bitCount - bitsRead) (8 - r.bitPos) = 8 then
            readLoop bitCount fuel
              (result ||| (((r.buffer.getD r.bytePos 0 >>> r.bitPos) &&&
                ((1 <<< min (bitCount - bitsRead) (8 - r.bitPos)) - 1)) <<< bitsRead))
              (bitsRead + min (bitCount - bitsRead) (8 - r.bitPos))
              { r with bytePos := r.bytePos + 1, bitPos := 0 }
          else
            readLoop bitCount fuel
              (result ||| (((r.buffer.getD r.bytePos 0 >>> r.bitPos) &&&
                ((1 <<< min (bitCount - bitsRead) (8 - r.bitPos)) - 1)) <<< bitsRead))
              (bitsRead + min (bitCount - bitsRead) (8 - r.bitPos))
              { r with bitPos := r.bitPos + min (bitCount - bitsRead) (8 - r.bitPos) }
      else (.ok result, r) := rfl

theorem readerLoop_done (bitCount fuel result bitsRead : Nat) (r : BitStreamReader)
    (h : bitCount ≤ bitsRead) :
    readLoop bitCount fuel result bitsRead r = (.ok result, r) := by
  cases fuel with
  | zero => rfl
  | succ f => rw [readerLoop_succ, if_neg (by omega)]

/-- `BitStreamReader.read_bits`'s loop over a source with no further bytes:
with no bit buffered and none readable it raises `EndOfStreamError`;
otherwise it returns the accumulated bits extended by the next
`min (n - bitsRead) (avail r)` buffered bits, LSB-first — a short result
when fewer than the requested bits remain. -/
theorem readerLoop_exhausted (n : Nat) :
    ∀ (fuel bitsRead result : Nat) (r : BitStreamReader),
      r.input = [] → r.bitPos ≤ 7 → bitsRead < n → n - bitsRead + 1 ≤ fuel →
      ((bitsRead = 0 ∧ r.bufferSize ≤ r.bytePos) →
        ∃ r', readLoop n fuel result bitsRead r = (.error .endOfStream, r'))
      ∧ (¬ (bitsRead = 0 ∧ r.bufferSize ≤ r.bytePos) →
        ∃ v r', readLoop n fuel result bitsRead r = (.ok v, r')
          ∧ ∀ j, v.testBit j
              = (result.testBit j
                 || (decide (bitsRead ≤ j ∧ j < bitsRead + min (n - bitsRead) (avail r))
                     && streamBitLSB r.buffer
                          (8 * r.bytePos + r.bitPos + (j - bitsRead))))) := by
  intro fuel
  induction fuel with
  | zero =>
    intro bitsRead result r hin hbit hlt hfuel
    omega
  | succ fuel ih =>
    intro bitsRead result r hin hbit hlt hfuel
    rw [readerLoop_succ, if_pos hlt]
    by_cases hB : r.bufferSize ≤ r.bytePos
    · have hav : avail r = 0 := by unfold avail; omega
      have hmin0 : ∀ j, ¬ (bitsRead ≤ j ∧ j < bitsRead + min (n - bitsRead) (avail r)) := by
        intro j
        rw [hav]
        omega
      rw [if_pos hB]
      by_cases he : r.eof = true
      · rw [if_pos he]
        constructor
        · rintro ⟨hb0, -⟩
          rw [if_pos hb0]
          exact ⟨r, rfl⟩
        · intro hne
          have hb0 : ¬ bitsRead = 0 := fun h => hne ⟨h, hB⟩
          rw [if_neg hb0]
          refine ⟨result, r, rfl, ?_⟩
          intro j
          simp [hmin0 j]
      · rw [if_neg he]
        have hfb : fill_buffer r
            = { r with bytePos := 0, bitPos := 0, bufferSize := 0, eof := true } := by
          unfold fill_buffer
          rw [hin]
          simp
        rw [hfb, if_pos rfl]
        constructor
        · rintro ⟨hb0, -⟩
          rw [if_pos hb0]
          exact ⟨_, rfl⟩
        · intro hne
          have hb0 : ¬ bitsRead = 0 := fun h => hne ⟨h, hB⟩
          rw [if_neg hb0]
          refine ⟨result, _, rfl, ?_⟩
          intro j
          simp [hmin0 j]
    · rw [if_neg hB]
      refine ⟨fun h => absurd h.2 hB, ?_⟩
      intro _
      set btw := min (n - bitsRead) (8 - r.bitPos) with hbtwdef
      have hbtw_le1 : btw ≤ n - bitsRead := Nat.min_le_left _ _
      have hbtw_le2 : btw ≤ 8 - r.bitPos := Nat.min_le_right _ _
      have hbtw_ge : 1 ≤ btw := le_min (by omega) (by omega)
      have havail : btw ≤ avail r := by unfold avail; omega
      set byte := r.buffer.getD r.bytePos 0 with hbytedef
      set ext := (byte >>> r.bitPos) &&& ((1 <<< btw) - 1) with hextdef
      have hextbit : ∀ m, ext.testBit m = (byte.testBit (r.bitPos + m) && decide (m < btw)) := by
        intro m
        rw [hextdef, Nat.testBit_land, Nat.testBit_shiftRight, Nat.one_shiftLeft,
          Nat.testBit_two_pow_sub_one]
      have hchunk : ∀ j, bitsRead ≤ j → j < bitsRead + btw →
          streamBitLSB r.buffer (8 * r.bytePos + r.bitPos + (j - bitsRead))
            = byte.testBit (r.bitPos + (j - bitsRead)) := by
        intro j hj1 hj2
        unfold streamBitLSB
        have hd : (8 * r.bytePos + r.bitPos + (j - bitsRead)) / 8 = r.bytePos := by omega
        have hm : (8 * r.bytePos + r.bitPos + (j - bitsRead)) % 8
            = r.bitPos + (j - bitsRead) := by omega
        rw [hd, hm, hbytedef]
      by_cases hdone : bitsRead + btw = n
      · have hmin : min (n - bitsRead) (avail r) = btw := by omega
        have hfin : ∀ j, (result ||| (ext <<< bitsRead)).testBit j
              = (result.testBit j
                 || (decide (bitsRead ≤ j ∧ j < bitsRead + min (n - bitsRead) (avail r))
                     && streamBitLSB r.buffer
                          (8 * r.bytePos + r.bitPos + (j - bitsRead)))) := by
          intro j
          rw [Nat.testBit_lor, Nat.testBit_shiftLeft, hextbit, hmin]
          by_cases hj1 : bitsRead ≤ j
          · by_cases hj2 : j < bitsRead + btw
            · rw [hchunk j hj1 hj2]
              have h3 : j - bitsRead < btw := by omega
              simp [hj1, hj2, h3]
            · have h3 : ¬ (j - bitsRead < btw) := by omega
              simp [hj1, hj2, h3]
          · simp [hj1]
        by_cases hcarry : r.bitPos + btw = 8
        · rw [if_pos hcarry, readerLoop_done n fuel _ _ _ (by omega)]
          exact ⟨_, _, rfl, hfin⟩
        · rw [if_neg hcarry, readerLoop_done n fuel _ _ _ (by omega)]
          exact ⟨_, _, rfl, hfin⟩
      · have hlt2 : bitsRead + btw < n := by omega
        have key : ∀ (r2 : BitStreamReader),
            r2.input = [] → r2.buffer = r.buffer → r2.bufferSize = r.bufferSize →
            r2.bitPos ≤ 7 →
            8 * r2.bytePos + r2.bitPos = 8 * r.bytePos + r.bitPos + btw →
            ∃ v r', readLoop n fuel (result ||| (ext <<< bitsRead)) (bitsRead + btw) r2
                = (.ok v, r')
              ∧ ∀ j, v.testBit j
                  = (result.testBit j
                     || (decide (bitsRead ≤ j ∧ j < bitsRead + min (n - bitsRead) (avail r))
                         && streamBitLSB r.buffer
                              (8 * r.bytePos + r.bitPos + (j - bitsRead)))) := by
          intro r2 h2in h2buf h2size h2bit h2pos
          have h2avail : avail r2 = avail r - btw := by
            unfold avail
            rw [h2size]
            unfold avail at havail
            omega
          obtain ⟨-, H2⟩ := ih (bitsRead + btw) (result ||| (ext <<< bitsRead)) r2
            h2in h2bit hlt2 (by omega)
          obtain ⟨v, r', heq, hbits⟩ := H2 (fun h => by omega)
          refine ⟨v, r', heq, ?_⟩
          intro j
          rw [hbits j, h2buf, h2avail, h2pos]
          rw [Nat.testBit_lor, Nat.testBit_shiftLeft, hextbit]
          have hminsub : min (n - (bitsRead + btw)) (avail r - btw)
              = min (n - bitsRead) (avail r) - btw := by omega
          rw [hminsub]
          by_cases hj1 : bitsRead ≤ j
          · by_cases hj2 : j < bitsRead + btw
            · have h3 : j - bitsRead < btw := by omega
              have h4 : ¬ (bitsRead + btw ≤ j) := by omega
              have h5 : j < bitsRead + min (n - bitsRead) (avail r) := by omega
              rw [hchunk j hj1 hj2]
              simp [hj1, hj2, h3, h4, h5]
            · have h3 : ¬ (j - bitsRead < btw) := by omega
              have h4 : bitsRead + btw ≤ j := by omega
              have hidx : 8 * r.bytePos + r.bitPos + btw + (j - (bitsRead + btw))
                  = 8 * r.bytePos + r.bitPos + (j - bitsRead) := by omega
              have hiff : (bitsRead + btw ≤ j
                    ∧ j < bitsRead + btw + (min (n - bitsRead) (avail r) - btw))
                  ↔ (bitsRead ≤ j ∧ j < bitsRead + min (n - bitsRead) (avail r)) := by
                omega
              have hdec : decide (bitsRead + btw ≤ j
                    ∧ j < bitsRead + btw + (min (n - bitsRead) (avail r) - btw))
                  = decide (bitsRead ≤ j ∧ j < bitsRead + min (n - bitsRead) (avail r)) :=
                decide_eq_decide.mpr hiff
              rw [hidx, hdec]
              simp [h3]
          · have h4 : ¬ (bitsRead + btw ≤ j) := by omega
            simp [hj1, h4]
        by_cases hcarry : r.bitPos + btw = 8
        · rw [if_pos hcarry]
          exact key { r with bytePos := r.bytePos + 1, bitPos := 0 } hin rfl rfl
            (by show (0 : Nat) ≤ 7; omega)
            (by show 8 * (r.bytePos + 1) + 0 = 8 * r.bytePos + r.bitPos + btw; omega)
        · rw [if_neg hcarry]
          exact key { r with bitPos := r.bitPos + btw } hin rfl rfl
            (by show r.bitPos + btw ≤ 7; omega)
            (by show 8 * r.bytePos + (r.bitPos + btw) = 8 * r.bytePos + r.bitPos + btw; omega)

/-- `BitStreamReader.read_bits` once the source is exhausted: with nothing
buffered it raises `EndOfStreamError`; otherwise it returns the first
`min n (avail r)` remaining buffered bits, LSB-first — a short (non-error)
result when fewer than `n` bits remain. -/
theorem read_bits_exhausted (r : BitStreamReader) (n : Nat)
    (hin : r.input = []) (hbit : r.bitPos ≤ 7) (h1 : 1 ≤ n) (h64 : n ≤ 64) :
    (r.bufferSize ≤ r.bytePos →
       ∃ r', read_bits r n = (.error .endOfStream, r'))
    ∧ (r.bytePos < r.bufferSize →
       ∃ v r', read_bits r n = (.ok v, r')
         ∧ ∀ j, v.testBit j
             = (decide (j < min n (avail r))
                && streamBitLSB r.buffer (8 * r.bytePos + r.bitPos + j))) := by
  have hg : ¬ (n = 0 ∨ 64 < n) := by omega
  obtain ⟨H1, H2⟩ := readerLoop_exhausted n (2 * n + 2) 0 0 r hin hbit (by omega) (by omega)
  constructor
  · intro hB
    obtain ⟨r', hr'⟩ := H1 ⟨rfl, hB⟩
    refine ⟨r', ?_⟩
    unfold read_bits
    rw [if_neg hg]
    exact hr'
  · intro hB
    obtain ⟨v, r', heq, hbits⟩ := H2 (fun h => absurd h.2 (by omega))
    refine ⟨v, r', ?_, ?_⟩
    · unfold read_bits
      rw [if_neg hg]
      exact heq
    · intro j
      have h := hbits j
      simpa using h

/-- `BitStreamReader.is_eof` computes `eof && bufferSize ≤ bytePos`: it is
`false` whenever the `_eof` flag is still clear, even if the source and the
buffer are both exhausted, and `true` only once a read has seen the source
empty and the buffered bytes are consumed. -/
theorem is_eof_flag (r : BitStreamReader) (hbit : r.bitPos ≤ 7) :
    (is_eof r).1 = (r.eof && decide (r.bufferSize ≤ r.bytePos)) := by
  unfold is_eof
  by_cases he : r.eof = true
  · by_cases hbp : r.bufferSize ≤ r.bytePos
    · simp [he, hbp]
    · have h8 : ¬ (r.bytePos = r.bufferSize - 1 ∧ r.bitPos = 8) := by omega
      rcases hI : r.input with - | ⟨a, as⟩ <;> simp [he, hbp, h8]
  · have he' : r.eof = false := by
      cases h : r.eof
      · rfl
      · exact absurd h he
    simp [he']

end BitStreamReader

namespace BitStreamWriter

theorem mod_two_pow_eq_zero_iff (x k : Nat) :
    x % 2 ^ k = 0 ↔ ∀ m, m < k → x.testBit m = false := by
  constructor
  · intro h m hm
    have ht := Nat.testBit_mod_two_pow x k m
    rw [h, Nat.zero_testBit] at ht
    simpa [hm] using ht.symm
  · intro h
    apply Nat.eq_of_testBit_eq
    intro i
    rw [Nat.testBit_mod_two_pow, Nat.zero_testBit]
    by_cases hi : i < k
    · simp [hi, h i hi]
    · simp [hi]

theorem getD_take_zero (l : List Nat) (n i : Nat) :
    (l.take n).getD i 0 = if i < n then l.getD i 0 else 0 := by
  rw [List.getD_eq_getElem?_getD, List.getD_eq_getElem?_getD, List.getElem?_take]
  by_cases h : i < n
  · rw [if_pos h, if_pos h]
  · rw [if_neg h, if_neg h]
    rfl

theorem getD_replicate_zero (c j : Nat) :
    (List.replicate c (0 : Nat)).getD j 0 = 0 := by
  rw [List.getD_eq_getElem?_getD, List.getElem?_replicate]
  by_cases h : j < c
  · rw [if_pos h]
    rfl
  · rw [if_neg h]
    rfl

theorem getD_set_zero (l : List Nat) (i nb j : Nat) (hi : i < l.length) :
    (l.set i nb).getD j 0 = if i = j then nb else l.getD j 0 := by
  rw [List.getD_eq_getElem?_getD, List.getD_eq_getElem?_getD, List.getElem?_set]
  by_cases h : i = j
  · rw [if_pos h, if_pos h, if_pos hi]
    rfl
  · rw [if_neg h, if_neg h]

theorem wLoop_succ (value : Int) (bitCount fuel bitsWritten : Nat) (w : BitStreamWriter) :
    writeLoop value bitCount (fuel + 1) bitsWritten w
    = if bitsWritten < bitCount then
        if w.bitPos + min (bitCount - bitsWritten) (8 - w.bitPos) = 8 then
          if w.bufferSize ≤ w.bytePos + 1 then
            writeLoop value bitCount fuel
              (bitsWritten + min (bitCount - bitsWritten) (8 - w.bitPos))
              (flush_buffer { w with buffer := w.buffer.set w.bytePos (writeChunkByte value (w.buffer.getD w.bytePos 0) bitsWritten (min (bitCount - bitsWritten) (8 - w.bitPos)) (8 - w.bitPos - min (bitCount - bitsWritten) (8 - w.bitPos))), bytePos := w.bytePos + 1, bitPos := 0 })
          else
            writeLoop value bitCount fuel
              (bitsWritten + min (bitCount - bitsWritten) (8 - w.bitPos))
              { w with buffer := w.buffer.set w.bytePos (writeChunkByte value (w.buffer.getD w.bytePos 0) bitsWritten (min (bitCount - bitsWritten) (8 - w.bitPos)) (8 - w.bitPos - min (bitCount - bitsWritten) (8 - w.bitPos))), bytePos := w.bytePos + 1, bitPos := 0 }
        else
          writeLoop value bitCount fuel
            (bitsWritten + min (bitCount - bitsWritten) (8 - w.bitPos))
            { w with buffer := w.buffer.set w.bytePos (writeChunkByte value (w.buffer.getD w.bytePos 0) bitsWritten (min (bitCount - bitsWritten) (8 - w.bitPos)) (8 - w.bitPos - min (bitCount - bitsWritten) (8 - w.bitPos))), bitPos := w.bitPos + min (bitCount - bitsWritten) (8 - w.bitPos) }
      else w := rfl

theorem flushBuffer_pos (w : BitStreamWriter) (h : 0 < w.bytePos) :
    flush_buffer w = { w with out := w.out ++ w.buffer.take w.bytePos, bytePos := 0, buffer := w.buffer.set 0 0 } := by
  unfold flush_buffer
  rw [if_pos h]

theorem flushBuffer_out (w : BitStreamWriter) :
    ∃ t, (flush_buffer w).out = w.out ++ t := by
  unfold flush_buffer
  by_cases h : 0 < w.bytePos
  · rw [if_pos h]
    exact ⟨_, rfl⟩
  · rw [if_neg h]
    exact ⟨[], (List.append_nil _).symm⟩

theorem wLoop_out (value : Int) (bitCount : Nat) :
    ∀ fuel bitsWritten w,
      ∃ t, (writeLoop value bitCount fuel bitsWritten w).out = w.out ++ t := by
  intro fuel
  induction fuel with
  | zero =>
    intro b w
    exact ⟨[], (List.append_nil _).symm⟩
  | succ fuel ih =>
    intro b w
    rw [wLoop_succ]
    by_cases hlt : b < bitCount
    · rw [if_pos hlt]
      by_cases hcarry : w.bitPos + min (bitCount - b) (8 - w.bitPos) = 8
      · rw [if_pos hcarry]
        by_cases hfull : w.bufferSize ≤ w.bytePos + 1
        · rw [if_pos hfull]
          obtain ⟨t2, h2⟩ := ih _ _
          obtain ⟨t1, h1⟩ := flushBuffer_out _
          refine ⟨t1 ++ t2, ?_⟩
          rw [h2, h1]
          simp
        · rw [if_neg hfull]
          obtain ⟨t2, h2⟩ := ih _ _
          exact ⟨t2, by rw [h2]⟩
      · rw [if_neg hcarry]
        obtain ⟨t2, h2⟩ := ih _ _
        exact ⟨t2, by rw [h2]⟩
    · rw [if_neg hlt]
      exact ⟨[], (List.append_nil _).symm⟩

theorem write_bits_ok1 (w : BitStreamWriter) (v : Int) (n : Nat)
    (h : ¬ (n = 0 ∨ 64 < n)) : (write_bits w v n).1 = .ok () := by
  unfold write_bits
  rw [if_neg h]

/-- The writer's loop preserves the zero-tail invariant as long as nothing
has been delivered to the sink: once a `_flush_buffer` delivers bytes the
hypothesis `out = []` can no longer hold, and every in-buffer step only
writes bits at the cursor, leaving the bits past it zero. -/
theorem wLoop_zeroTail (value : Int) (bitCount : Nat) :
    ∀ fuel bitsWritten w, (w.out = [] → ZeroTail w) →
      ((writeLoop value bitCount fuel bitsWritten w).out = []
        → ZeroTail (writeLoop value bitCount fuel bitsWritten w)) := by
  intro fuel
  induction fuel with
  | zero =>
    intro b w hP
    exact hP
  | succ fuel ih =>
    intro b w hP
    rw [wLoop_succ]
    by_cases hlt : b < bitCount
    case neg =>
      rw [if_neg hlt]
      exact hP
    case pos =>
      rw [if_pos hlt]
      set btw := min (bitCount - b) (8 - w.bitPos) with hbtwdef
      set nb := writeChunkByte value (w.buffer.getD w.bytePos 0) b btw (8 - w.bitPos - btw)
        with hnbdef
      have hbtw_le2 : btw ≤ 8 - w.bitPos := Nat.min_le_right _ _
      have hnblow : ZeroTail w → ∀ m, m < 8 - w.bitPos - btw → nb.testBit m = false := by
        intro hz m hm
        rw [hnbdef, BitStream.writeChunkByte_testBit, if_neg (by omega)]
        have h0 : (w.buffer.getD w.bytePos 0).testBit m = false :=
          (mod_two_pow_eq_zero_iff _ _).mp hz.2.2.2.1 m (by omega)
        rw [h0]
        rfl
      by_cases hcarry : w.bitPos + btw = 8
      · rw [if_pos hcarry]
        by_cases hfull : w.bufferSize ≤ w.bytePos + 1
        · rw [if_pos hfull]
          apply ih
          intro hout
          rw [flushBuffer_pos _ (Nat.succ_pos _)] at hout
          have hout' : w.out ++ (w.buffer.set w.bytePos nb).take (w.bytePos + 1) = [] := hout
          obtain ⟨hw0, htk⟩ := List.append_eq_nil.mp hout'
          have hz := hP hw0
          have hlen1 : ((w.buffer.set w.bytePos nb).take (w.bytePos + 1)).length = 0 := by
            rw [htk]
            rfl
          rw [List.length_take, List.length_set] at hlen1
          have hcap : w.bytePos < w.buffer.length := by
            have := hz.2.2.1
            have := hz.2.1
            omega
          omega
        · rw [if_neg hfull]
          apply ih
          intro hout
          have hz := hP hout
          have hcap : w.bytePos < w.buffer.length := by
            have := hz.2.2.1
            have := hz.2.1
            omega
          refine ⟨?_, ?_, ?_, ?_, ?_⟩
          · show (0 : Nat) ≤ 7
            omega
          · show w.bytePos + 1 < w.bufferSize
            omega
          · show (w.buffer.set w.bytePos nb).length = w.bufferSize
            rw [List.length_set]
            exact hz.2.2.1
          · show (w.buffer.set w.bytePos nb).getD (w.bytePos + 1) 0 % 2 ^ (8 - 0) = 0
            rw [getD_set_zero _ _ _ _ hcap, if_neg (by omega),
              hz.2.2.2.2 (w.bytePos + 1) (by omega)]
            rfl
          · intro j hj
            have hj' : w.bytePos + 1 < j := hj
            show (w.buffer.set w.bytePos nb).getD j 0 = 0
            rw [getD_set_zero _ _ _ _ hcap, if_neg (by omega)]
            exact hz.2.2.2.2 j (by omega)
      · rw [if_neg hcarry]
        apply ih
        intro hout
        have hz := hP hout
        have hcap : w.bytePos < w.buffer.length := by
          have := hz.2.2.1
          have := hz.2.1
          omega
        have hb7 := hz.1
        refine ⟨?_, ?_, ?_, ?_, ?_⟩
        · show w.bitPos + btw ≤ 7
          omega
        · show w.bytePos < w.bufferSize
          exact hz.2.1
        · show (w.buffer.set w.bytePos nb).length = w.bufferSize
          rw [List.length_set]
          exact hz.2.2.1
        · show (w.buffer.set w.bytePos nb).getD w.bytePos 0 % 2 ^ (8 - (w.bitPos + btw)) = 0
          rw [getD_set_zero _ _ _ _ hcap, if_pos rfl, mod_two_pow_eq_zero_iff]
          intro m hm
          exact hnblow hz m (by omega)
        · intro j hj
          have hj' : w.bytePos < j := hj
          show (w.buffer.set w.bytePos nb).getD j 0 = 0
          rw [getD_set_zero _ _ _ _ hcap, if_neg (by omega)]
          exact hz.2.2.2.2 j hj'

theorem write_bits_zeroTail (w : BitStreamWriter) (v : Int) (n : Nat)
    (hP : w.out = [] → ZeroTail w) :
    (write_bits w v n).2.out = [] → ZeroTail (write_bits w v n).2 := by
  unfold write_bits
  by_cases hg : n = 0 ∨ 64 < n
  · rw [if_pos hg]
    exact hP
  · rw [if_neg hg]
    show (writeLoop v n n 0 (if w.bufferSize ≤ w.bytePos then flush_buffer w else w)).out = []
        → ZeroTail (writeLoop v n n 0 (if w.bufferSize ≤ w.bytePos then flush_buffer w else w))
    apply wLoop_zeroTail
    intro h0
    by_cases hB : w.bufferSize ≤ w.bytePos
    · rw [if_pos hB] at h0 ⊢
      by_cases hbp : 0 < w.bytePos
      · rw [flushBuffer_pos w hbp] at h0 ⊢
        have h0' : w.out ++ w.buffer.take w.bytePos = [] := h0
        have hw0 : w.out = [] := (List.append_eq_nil.mp h0').1
        have hz := hP hw0
        exact absurd hz.2.1 (by omega)
      · have hfb : flush_buffer w = w := by
          unfold flush_buffer
          rw [if_neg hbp]
        rw [hfb] at h0 ⊢
        have hz := hP h0
        exact absurd hz.2.1 (by omega)
    · rw [if_neg hB] at h0 ⊢
      exact hP h0

theorem u128_snd (w : BitStreamWriter) (v : Int) (n : Nat)
    (hg : ¬ (n = 0 ∨ 128 < n)) (h64 : ¬ n ≤ 64) :
    (write_bits_u128 w v n).2
      = (write_bits (write_bits w ((intAndNat v ((1 <<< 64) - 1) : Nat) : Int) 64).2
          (v >>> (64 : Nat)) (n - 64)).2 := by
  unfold write_bits_u128
  rw [if_neg hg, if_neg h64]
  have hok : (write_bits w ((intAndNat v ((1 <<< 64) - 1) : Nat) : Int) 64).1 = Except.ok () :=
    write_bits_ok1 w _ 64 (by omega)
  rcases h1 : write_bits w ((intAndNat v ((1 <<< 64) - 1) : Nat) : Int) 64 with ⟨e1, w1⟩
  rw [h1] at hok
  have he1 : e1 = Except.ok () := hok
  subst he1
  rcases h2 : write_bits w1 (v >>> (64 : Nat)) (n - 64) with ⟨e2, w2⟩
  cases e2 with
  | error e => simp [h2]
  | ok u => simp [h2]

theorem write_bits_u128_zeroTail (w : BitStreamWriter) (v : Int) (n : Nat)
    (hP : w.out = [] → ZeroTail w) :
    (write_bits_u128 w v n).2.out = [] → ZeroTail (write_bits_u128 w v n).2 := by
  by_cases hg : n = 0 ∨ 128 < n
  · have h : (write_bits_u128 w v n).2 = w := by
      unfold write_bits_u128
      rw [if_pos hg]
    rw [h]
    exact hP
  · by_cases h64 : n ≤ 64
    · have h : write_bits_u128 w v n = write_bits w v n := by
        unfold write_bits_u128
        rw [if_neg hg, if_pos h64]
      rw [h]
      exact write_bits_zeroTail w v n hP
    · rw [u128_snd w v n hg h64]
      exact write_bits_zeroTail _ _ _ (write_bits_zeroTail _ _ _ hP)

/-- A reachable writer that has not yet delivered any byte to the sink
satisfies the zero-tail invariant: every bit at or past the cursor of its
internal buffer is still zero. -/
theorem WReach.zeroTail {w : BitStreamWriter} (h : WReach w) :
    w.out = [] → ZeroTail w := by
  induction h with
  | init cap hcap =>
    intro _
    refine ⟨?_, ?_, ?_, ?_, ?_⟩
    · show (0 : Nat) ≤ 7
      omega
    · show (0 : Nat) < cap
      omega
    · show (List.replicate cap (0 : Nat)).length = cap
      simp
    · show (List.replicate cap (0 : Nat)).getD 0 0 % 2 ^ (8 - 0) = 0
      rw [getD_replicate_zero]
      rfl
    · intro j hj
      show (List.replicate cap (0 : Nat)).getD j 0 = 0
      exact getD_replicate_zero cap j
  | wr w v n hre ih => exact write_bits_zeroTail w v n ih
  | wrU w v n hre ih => exact write_bits_u128_zeroTail w v n ih

/-- `flush` on a zero-tail writer that has delivered nothing yet: it
delivers `bytePos` full bytes plus one byte for a pending partial byte, and
every delivered bit position at or past the cursor position (the positions
never written) is zero. -/
theorem flush_zeroFill (w : BitStreamWriter) (hz : ZeroTail w) (hout : w.out = []) :
    (flush w).out.length = w.bytePos + (if 0 < w.bitPos then 1 else 0)
    ∧ ∀ p, 8 * w.bytePos + w.bitPos ≤ p → p < 8 * (flush w).out.length →
        sinkBit (flush w).out p = false := by
  obtain ⟨hb7, hbcap, hlen, hcur, htail⟩ := hz
  by_cases hb : 0 < w.bitPos
  · have hflush : flush w = { w with out := w.out ++ w.buffer.take (w.bytePos + 1), bytePos := 0, bitPos := 0, buffer := w.buffer.set 0 0 } := by
      unfold flush
      rw [if_pos hb, flushBuffer_pos _ (Nat.succ_pos _)]
    rw [hflush, hout]
    have hL : (([] : List Nat) ++ w.buffer.take (w.bytePos + 1)).length = w.bytePos + 1 := by
      simp [List.length_take]
      omega
    constructor
    · show (([] : List Nat) ++ w.buffer.take (w.bytePos + 1)).length
        = w.bytePos + (if 0 < w.bitPos then 1 else 0)
      rw [hL, if_pos hb]
    · intro p hp1 hp2
      have hp2' : p < 8 * (w.bytePos + 1) := by
        have h := (hp2 : p < 8 * (([] : List Nat) ++ w.buffer.take (w.bytePos + 1)).length)
        rw [hL] at h
        exact h
      show sinkBit (([] : List Nat) ++ w.buffer.take (w.bytePos + 1)) p = false
      unfold sinkBit
      rw [List.nil_append]
      have hdiv : p / 8 = w.bytePos := by omega
      rw [hdiv, getD_take_zero, if_pos (by omega)]
      exact (mod_two_pow_eq_zero_iff _ _).mp hcur (7 - p % 8) (by omega)
  · have hflush : flush w = flush_buffer w := by
      unfold flush
      rw [if_neg hb]
    by_cases hbp : 0 < w.bytePos
    · have hfw : flush w = { w with out := w.out ++ w.buffer.take w.bytePos, bytePos := 0, buffer := w.buffer.set 0 0 } := by
        rw [hflush, flushBuffer_pos w hbp]
      rw [hfw, hout]
      have hL : (([] : List Nat) ++ w.buffer.take w.bytePos).length = w.bytePos := by
        simp [List.length_take]
        omega
      constructor
      · show (([] : List Nat) ++ w.buffer.take w.bytePos).length
          = w.bytePos + (if 0 < w.bitPos then 1 else 0)
        rw [hL, if_neg hb]
        omega
      · intro p hp1 hp2
        have h := (hp2 : p < 8 * (([] : List Nat) ++ w.buffer.take w.bytePos).length)
        rw [hL] at h
        exact absurd h (by omega)
    · have hfw : flush w = w := by
        rw [hflush]
        unfold flush_buffer
        rw [if_neg hbp]
      rw [hfw, hout]
      constructor
      · show ([] : List Nat).length = w.bytePos + (if 0 < w.bitPos then 1 else 0)
        rw [if_neg hb]
        simp
        omega
      · intro p hp1 hp2
        have h := (hp2 : p < 8 * ([] : List Nat).length)
        simp at h

/-- `flush` is idempotent: after one flush the cursor sits at byte 0 with
no pending bits, so a second flush delivers nothing and changes nothing. -/
theorem flush_flush (w : BitStreamWriter) : flush (flush w) = flush w := by
  have h1 : (flush w).bitPos = 0 ∧ (flush w).bytePos = 0 := by
    by_cases hb : 0 < w.bitPos <;> by_cases hp : 0 < w.bytePos <;>
      simp [flush, flush_buffer, hb, hp] <;> omega
  obtain ⟨hbit0, hbyte0⟩ := h1
  have h2 : flush (flush w) = flush_buffer (flush w) := by
    show flush_buffer (if 0 < (flush w).bitPos
        then { flush w with bytePos := (flush w).bytePos + 1, bitPos := 0 } else flush w)
      = flush_buffer (flush w)
    rw [if_neg (by rw [hbit0]; omega)]
  rw [h2]
  show (if 0 < (flush w).bytePos
      then { flush w with out := (flush w).out ++ (flush w).buffer.take (flush w).bytePos, bytePos := 0, buffer := (flush w).buffer.set 0 0 }
      else flush w)
    = flush w
  rw [if_neg (by rw [hbyte0]; omega)]

end BitStreamWriter

/-! ## The claims -/

/-- C1: the writer/reader round trip is broken — the code contradicts its
own test `test_lsb_order_all_bit_lengths` (and `test_bit_stream_reader_basic`).
Writing value 1 with width 1 through `BitStreamWriter.write_bits` and
flushing delivers the byte `0x80` (the chunk is placed at the MSB end of
the byte, `byte_shift = bits_left_in_byte - bits_to_write`), but
`BitStreamReader.read_bits` extracts LSB-first (`current_byte >> bit_pos`),
so reading 1 bit back returns 0, not 1. -/
theorem c1_writer_reader_roundtrip_broken :
    (BitStreamWriter.flush (BitStreamWriter.write_bits (BitStreamWriter.mkWriter 4) 1 1).2).out
      = [128]
    ∧ (BitStreamReader.read_bits (BitStreamReader.mkReader [128] 4) 1).1 = Except.ok 0 :=
  ⟨rfl, rfl⟩

/-- C2: `BitStream` round trip.  For `1 ≤ n ≤ 64` and `v < 2 ^ n`, writing
`v` with `write_bits` at any position and re-reading `n` bits from that
position returns `v` unchanged; the same holds for `1 ≤ n ≤ 128` through
`write_bits_u128` / `read_bits_u128`. -/
theorem c2_roundtrip (s : BitStream) (v n : Nat) (hInv : BitStream.Inv s) :
    (1 ≤ n → n ≤ 64 → v < 2 ^ n →
      (BitStream.write_bits s ((v : Nat) : Int) n).1 = .ok ()
      ∧ (BitStream.read_bits
          (BitStream.set_position (BitStream.write_bits s ((v : Nat) : Int) n).2
            (BitStream.position s)).2 n).1 = .ok v)
    ∧ (1 ≤ n → n ≤ 128 → v < 2 ^ n →
      (BitStream.write_bits_u128 s ((v : Nat) : Int) n).1 = .ok ()
      ∧ (BitStream.read_bits_u128
          (BitStream.set_position (BitStream.write_bits_u128 s ((v : Nat) : Int) n).2
            (BitStream.position s)).2 n).1 = .ok v) := by
  have hmod : ∀ m : Nat, v < 2 ^ m → (((v : Nat) : Int) % (2 : Int) ^ m).toNat = v := by
    intro m hv
    have hlt : ((v : Nat) : Int) < (2 : Int) ^ m := by exact_mod_cast hv
    rw [Int.emod_eq_of_lt (by positivity) hlt, Int.toNat_natCast]
  constructor
  · intro h1 h2 hv
    obtain ⟨W0, -, W2, -⟩ := BitStream.write_read_roundtrip s ((v : Nat) : Int) n hInv h1 h2
    rw [hmod n hv] at W2
    exact ⟨W0, W2⟩
  · intro h1 h2 hv
    obtain ⟨W0, -, W2⟩ := BitStream.write_read_roundtrip_u128 s ((v : Nat) : Int) n hInv h1 h2
    rw [hmod n hv] at W2
    exact ⟨W0, W2⟩

theorem c2_witness :
    (BitStream.write_bits (BitStream.from_bytes [0, 0]) (((5 : Nat) : Nat) : Int) 3).1 = .ok ()
    ∧ (BitStream.read_bits
        (BitStream.set_position
          (BitStream.write_bits (BitStream.from_bytes [0, 0]) (((5 : Nat) : Nat) : Int) 3).2
          (BitStream.position (BitStream.from_bytes [0, 0]))).2 3).1 = .ok 5 :=
  (c2_roundtrip (BitStream.from_bytes [0, 0]) 5 3 (BitStream.Inv_from_bytes [0, 0])).1
    (by decide) (by decide) (by decide)

/-- C3: the concrete `[0xA5, 0x5A]` scenario.  Reads of 1, 3, 4 and 8 bits
return 1, 2, 5 and 0x5A = 90, and the next 1-bit read fails with
`EndOfStreamError`. -/
theorem c3_read_scenario :
    (BitStream.read_bits (BitStream.from_bytes [165, 90]) 1).1 = .ok 1
    ∧ (BitStream.read_bits
        (BitStream.read_bits (BitStream.from_bytes [165, 90]) 1).2 3).1 = .ok 2
    ∧ (BitStream.read_bits
        (BitStream.read_bits
          (BitStream.read_bits (BitStream.from_bytes [165, 90]) 1).2 3).2 4).1 = .ok 5
    ∧ (BitStream.read_bits
        (BitStream.read_bits
          (BitStream.read_bits
            (BitStream.read_bits (BitStream.from_bytes [165, 90]) 1).2 3).2 4).2 8).1
        = .ok 90
    ∧ (BitStream.read_bits
        (BitStream.read_bits
          (BitStream.read_bits
            (BitStream.read_bits
              (BitStream.read_bits (BitStream.from_bytes [165, 90]) 1).2 3).2 4).2 8).2 1).1
        = .error .endOfStream :=
  ⟨rfl, rfl, rfl, rfl, rfl⟩

/-- C4 (counterexample to the claim as stated): reading 1 bit of the byte
`0x00` with `is_signed = True` returns a `BitValue` whose `is_signed` tag
is `false`, not the requested `true`: the tag is recomputed by
`BitValue.__init__` from `value < 0`, not taken from the request. -/
theorem c4_counterexample :
    (BitStream.read_bit_value (BitStream.from_bytes [0]) 1 true).1
      = .ok { value := 0, bit_count := 1, is_signed := false } :=
  rfl

/-- C4 (amended): a successful `read_bit_value(n, is_signed)` returns the
`BitValue` whose `bit_count` is `n`, whose value is the raw `n`-bit read
reinterpreted as `raw - 2^n` exactly when `is_signed` is true and bit
`n-1` of the raw read is set, and whose `is_signed` tag equals
`is_signed && (bit n-1 of the raw read)` — the requested flag only
survives when the resulting value is negative. -/
theorem c4_read_bit_value (s : BitStream) (n : Nat) (signed : Bool)
    (hInv : BitStream.Inv s) (h1 : 1 ≤ n) (h2 : n ≤ 128)
    (h3 : BitStream.position s + n ≤ s.bitLength) :
    ∃ raw, (BitStream.read_bits_u128 s n).1 = .ok raw
      ∧ BitStream.read_bit_value s n signed
          = (.ok { value := if signed = true ∧ raw &&& (1 <<< (n - 1)) ≠ 0
                     then (raw : Int) - ((1 <<< n : Nat) : Int) else (raw : Int),
                   bit_count := n,
                   is_signed := signed && raw.testBit (n - 1) },
             (BitStream.read_bits_u128 s n).2) :=
  BitStream.read_bit_value_spec s n signed hInv h1 h2 h3

theorem c4_witness :
    ∃ raw, (BitStream.read_bits_u128 (BitStream.from_bytes [128]) 8).1 = .ok raw
      ∧ BitStream.read_bit_value (BitStream.from_bytes [128]) 8 true
          = (.ok { value := if true = true ∧ raw &&& (1 <<< (8 - 1)) ≠ 0
                     then (raw : Int) - ((1 <<< 8 : Nat) : Int) else (raw : Int),
                   bit_count := 8,
                   is_signed := true && raw.testBit (8 - 1) },
             (BitStream.read_bits_u128 (BitStream.from_bytes [128]) 8).2) :=
  c4_read_bit_value (BitStream.from_bytes [128]) 8 true (BitStream.Inv_from_bytes [128])
    (by decide) (by decide) (by decide)

/-- C5 (counterexample to the claim as stated): a reader over the single
byte `0xFF` asked for 16 bits assembles only the 8 available bits and
returns the short result 255 with `ok`, instead of raising
`EndOfStreamError`. -/
theorem c5_counterexample :
    (BitStreamReader.read_bits (BitStreamReader.mkReader [255] 4) 16).1 = Except.ok 255 :=
  rfl

/-- C5 (amended): when `read_bits(n)` runs against an exhausted source, it
raises `EndOfStreamError` only if no bit at all can be delivered
(`avail r = 0`); if at least one buffered bit remains it returns `ok` with
the first `min n (avail r)` remaining bits, LSB-first — a short,
non-error result whenever fewer than `n` bits remain. -/
theorem c5_reader_exhausted (r : BitStreamReader) (n : Nat)
    (hin : r.input = []) (hbit : r.bitPos ≤ 7) (h1 : 1 ≤ n) (h64 : n ≤ 64) :
    (BitStreamReader.avail r = 0 →
       ∃ r', BitStreamReader.read_bits r n = (.error .endOfStream, r'))
    ∧ (0 < BitStreamReader.avail r →
       ∃ v r', BitStreamReader.read_bits r n = (.ok v, r')
         ∧ ∀ j, v.testBit j
             = (decide (j < min n (BitStreamReader.avail r))
                && BitStreamReader.streamBitLSB r.buffer (8 * r.bytePos + r.bitPos + j))) := by
  obtain ⟨H1, H2⟩ := BitStreamReader.read_bits_exhausted r n hin hbit h1 h64
  constructor
  · intro hav
    apply H1
    unfold BitStreamReader.avail at hav
    omega
  · intro hav
    apply H2
    unfold BitStreamReader.avail at hav
    omega

theorem c5_witness :
    ∃ v r', BitStreamReader.read_bits
        (⟨[], [255, 0, 0, 0], 0, 0, 1, false⟩ : BitStreamReader) 16 = (.ok v, r')
      ∧ ∀ j, v.testBit j
          = (decide (j < min 16
              (BitStreamReader.avail (⟨[], [255, 0, 0, 0], 0, 0, 1, false⟩ : BitStreamReader)))
             && BitStreamReader.streamBitLSB [255, 0, 0, 0] (8 * 0 + 0 + j)) :=
  (c5_reader_exhausted (⟨[], [255, 0, 0, 0], 0, 0, 1, false⟩ : BitStreamReader) 16
    rfl (by decide) (by decide) (by decide)).2 (by decide)

/-- C6 (counterexample to the claim as stated): a reader over the single
byte `0xAA` that has read all 8 bits (source exhausted, buffer fully
consumed) still reports `is_eof() = false`, because the `_eof` flag was
never set by a failed refill and `is_eof` returns `false` immediately when
the flag is clear, without probing the source. -/
theorem c6_counterexample :
    (BitStreamReader.read_bits (BitStreamReader.mkReader [170] 4) 8).1 = Except.ok 170
    ∧ (BitStreamReader.read_bits (BitStreamReader.mkReader [170] 4) 8).2.input = []
    ∧ (BitStreamReader.read_bits (BitStreamReader.mkReader [170] 4) 8).2.bufferSize
        ≤ (BitStreamReader.read_bits (BitStreamReader.mkReader [170] 4) 8).2.bytePos
    ∧ (BitStreamReader.is_eof
        ((BitStreamReader.read_bits (BitStreamReader.mkReader [170] 4) 8).2)).1 = false :=
  ⟨rfl, rfl, by decide, rfl⟩

/-- C6 (amended): `is_eof()` returns `eof_flag && (bufferSize ≤ bytePos)`:
it never returns true while unread bytes remain in the buffer, but it also
never probes the source when the `_eof` flag is still clear — a reader
that consumed every bit of an exhausted source reports `false` until some
read has observed the exhaustion. -/
theorem c6_is_eof (r : BitStreamReader) (hbit : r.bitPos ≤ 7) :
    (BitStreamReader.is_eof r).1 = (r.eof && decide (r.bufferSize ≤ r.bytePos))
    ∧ (r.bytePos < r.bufferSize → (BitStreamReader.is_eof r).1 = false) := by
  have h := BitStreamReader.is_eof_flag r hbit
  refine ⟨h, fun hlt => ?_⟩
  have hn : ¬ (r.bufferSize ≤ r.bytePos) := by omega
  rw [h]
  simp [hn]

theorem c6_witness :
    (BitStreamReader.is_eof (BitStreamReader.mkReader [1, 2] 4)).1
      = ((BitStreamReader.mkReader [1, 2] 4).eof
         && decide ((BitStreamReader.mkReader [1, 2] 4).bufferSize
              ≤ (BitStreamReader.mkReader [1, 2] 4).bytePos))
    ∧ ((BitStreamReader.mkReader [1, 2] 4).bytePos
         < (BitStreamReader.mkReader [1, 2] 4).bufferSize →
       (BitStreamReader.is_eof (BitStreamReader.mkReader [1, 2] 4)).1 = false) :=
  c6_is_eof (BitStreamReader.mkReader [1, 2] 4) (by decide)

/-- C7 (counterexample to the claim as stated): with a 2-byte internal
buffer, writing 0xFFFF with 16 bits and then 0 with 12 bits (28 bits in
total) and flushing delivers `[0xFF, 0xFF, 0x00, 0x0F]`: bit position 28
of the delivered stream was never the target of a written bit, yet it
holds 1 — `_flush_buffer` clears only byte 0 of the recycled buffer, so
stale bits of the overwritten bytes leak into the unwritten positions. -/
theorem c7_counterexample :
    (BitStreamWriter.flush
        (BitStreamWriter.write_bits
          ((BitStreamWriter.write_bits (BitStreamWriter.mkWriter 2) 65535 16).2) 0 12).2).out
      = [255, 255, 0, 15]
    ∧ BitStreamWriter.sinkBit
        (BitStreamWriter.flush
          (BitStreamWriter.write_bits
            ((BitStreamWriter.write_bits (BitStreamWriter.mkWriter 2) 65535 16).2) 0 12).2).out
        28 = true :=
  ⟨rfl, rfl⟩

/-- C7 (amended): for a reachable writer that has not yet delivered any
byte to the sink (no intermediate buffer flush occurred), `flush()`
delivers `bytePos` full bytes plus one byte for a pending partial byte,
and every delivered bit position at or past the cursor — the positions
never targeted by a written bit — holds zero; moreover `flush` is
idempotent unconditionally: a second `flush()` delivers nothing and
changes nothing. -/
theorem c7_flush :
    (∀ w : BitStreamWriter, BitStreamWriter.WReach w → w.out = [] →
      (BitStreamWriter.flush w).out.length = w.bytePos + (if 0 < w.bitPos then 1 else 0)
      ∧ ∀ p, 8 * w.bytePos + w.bitPos ≤ p → p < 8 * (BitStreamWriter.flush w).out.length →
          BitStreamWriter.sinkBit (BitStreamWriter.flush w).out p = false)
    ∧ ∀ w : BitStreamWriter,
        BitStreamWriter.flush (BitStreamWriter.flush w) = BitStreamWriter.flush w :=
  ⟨fun w hw hout => BitStreamWriter.flush_zeroFill w (hw.zeroTail hout) hout,
   BitStreamWriter.flush_flush⟩

theorem c7_witness :
    ((BitStreamWriter.flush ((BitStreamWriter.write_bits (BitStreamWriter.mkWriter 4) 5 3).2)).out.length
      = (BitStreamWriter.write_bits (BitStreamWriter.mkWriter 4) 5 3).2.bytePos
        + (if 0 < (BitStreamWriter.write_bits (BitStreamWriter.mkWriter 4) 5 3).2.bitPos
           then 1 else 0))
    ∧ BitStreamWriter.sinkBit
        (BitStreamWriter.flush
          ((BitStreamWriter.write_bits (BitStreamWriter.mkWriter 4) 5 3).2)).out 3 = false
    ∧ BitStreamWriter.flush (BitStreamWriter.flush (BitStreamWriter.mkWriter 4))
        = BitStreamWriter.flush (BitStreamWriter.mkWriter 4) := by
  have h := c7_flush
  have hre : BitStreamWriter.WReach (BitStreamWriter.write_bits (BitStreamWriter.mkWriter 4) 5 3).2 :=
    BitStreamWriter.WReach.wr _ 5 3 (BitStreamWriter.WReach.init 4 (by decide))
  exact ⟨(h.1 _ hre rfl).1, (h.1 _ hre rfl).2 3 (by decide) (by decide),
    h.2 (BitStreamWriter.mkWriter 4)⟩

/-- C8: every `BitStream` state reachable from construction through
successful operations satisfies `bit_length ≤ 8 * len(buffer)` and
`position() ≤ bit_length`. -/
theorem c8_invariant (s : BitStream) (h : BitStream.Reachable s) :
    s.bitLength ≤ 8 * s.buffer.length ∧ BitStream.position s ≤ s.bitLength :=
  ⟨h.inv.1, h.inv.2.1⟩

theorem c8_witness :
    (BitStream.from_bytes [1, 2]).bitLength ≤ 8 * (BitStream.from_bytes [1, 2]).buffer.length
    ∧ BitStream.position (BitStream.from_bytes [1, 2]) ≤ (BitStream.from_bytes [1, 2]).bitLength :=
  c8_invariant (BitStream.from_bytes [1, 2]) (BitStream.Reachable.init [1, 2])

/-- C9: every failing `BitStream` operation (`read_bits`, `read_bits_u128`,
`write_bits`, `write_bits_u128`, `set_position` — and trivially `reset`,
which cannot fail) is atomic: when it raises, the state (cursor, bit
length and buffer alike) is exactly the state before the call. -/
theorem c9_atomicity (s : BitStream) (op : BitStream.BOp) (e : Err)
    (hInv : BitStream.Inv s) (h : (BitStream.applyOp s op).1 = .error e) :
    (BitStream.applyOp s op).2 = s := by
  cases op with
  | rd n =>
    exact BitStream.read_bits_error s n e (BitStream.map_eq_error _ e h)
  | rdU n =>
    exact BitStream.read_bits_u128_error s n e hInv (BitStream.map_eq_error _ e h)
  | wr v n =>
    exact BitStream.write_bits_error s v n e h
  | wrU v n =>
    exact BitStream.write_bits_u128_error s v n e hInv h
  | setPos p =>
    exact BitStream.set_position_error s p e h
  | resetOp =>
    simp [BitStream.applyOp] at h

theorem c9_witness :
    (BitStream.applyOp (BitStream.from_bytes [7]) (BitStream.BOp.rd 0)).2
      = BitStream.from_bytes [7] :=
  c9_atomicity (BitStream.from_bytes [7]) (BitStream.BOp.rd 0) Err.invalidBitCount
    (BitStream.Inv_from_bytes [7]) rfl

/-- C10: `BitStream.write_bits` accepts every integer value — negative or
wider than `n` bits — without a range error, and stores exactly the low
`n` two's-complement bits: re-reading `n` bits from the same position
returns `value mod 2^n` (the nonnegative Python remainder). -/
theorem c10_write_mask (s : BitStream) (v : Int) (n : Nat)
    (hInv : BitStream.Inv s) (h1 : 1 ≤ n) (h2 : n ≤ 64) :
    (BitStream.write_bits s v n).1 = .ok ()
    ∧ (BitStream.read_bits
        (BitStream.set_position (BitStream.write_bits s v n).2 (BitStream.position s)).2 n).1
        = .ok ((v % (2 : Int) ^ n).toNat) := by
  obtain ⟨W0, -, W2, -⟩ := BitStream.write_read_roundtrip s v n hInv h1 h2
  exact ⟨W0, W2⟩

theorem c10_witness :
    (BitStream.write_bits (BitStream.from_bytes []) (-1) 8).1 = .ok ()
    ∧ (BitStream.read_bits
        (BitStream.set_position (BitStream.write_bits (BitStream.from_bytes []) (-1) 8).2
          (BitStream.position (BitStream.from_bytes []))).2 8).1
        = .ok (((-1 : Int) % (2 : Int) ^ 8).toNat) :=
  c10_write_mask (BitStream.from_bytes []) (-1) 8 (BitStream.Inv_from_bytes [])
    (by decide) (by decide)

end VarStreams
